import Mathlib

/-!
Verification of the lockfile-inventory logic of the Putesco web application.

The definitions below are a shallow embedding of the client-side extraction
pipeline (`extractPackages` and its helpers) and of `normalizeGitUrl` from
`src/app/page.tsx` (the variant carrying the `isExplicit` and `loading`
fields, lines 515-929), plus a spec-modelled version-severity classifier.

Modelling conventions for the JavaScript host semantics:
* A parsed JSON document is a `JsValue` tree.  `JSON.parse` never produces
  shared object references, so the reference-identity `visited` set of the
  source can never observe a revisit on such input; the traversal is
  therefore modelled as plain structural recursion on the tree.
* The field list of a `vobj` is taken in the enumeration order that
  `Object.entries` / `Object.keys` would yield for that object.
* `String.prototype.localeCompare` is host- and locale-defined
  (implementation-dependent per ECMA-402); it is modelled as code-unit
  lexicographic comparison, the reading under which the specification
  describes the orderings as "case-sensitive lexicographic".
* JavaScript string operations are modelled over the character list of the
  Lean string (`String.data`); the UTF-16 vs. code-point distinction is
  ignored.
-/

namespace Putesco

/-- A parsed JSON value (the result of `JSON.parse`): the `unknown` inputs of
the source.  `vobj` fields are listed in JavaScript enumeration order. -/
inductive JsValue where
  | vstr (s : String)
  | vbool (b : Bool)
  | vnum (n : Int)
  | vnull
  | varr (items : List JsValue)
  | vobj (fields : List (String × JsValue))
deriving Repr

mutual
/-- Size measure on `JsValue` trees, used for termination of the
dependency-tree traversal. -/
def jsSize : JsValue → Nat
  | .vstr _ => 1
  | .vbool _ => 1
  | .vnum _ => 1
  | .vnull => 1
  | .varr its => 1 + jsSizeItems its
  | .vobj fs => 1 + jsSizeFields fs

def jsSizeItems : List JsValue → Nat
  | [] => 0
  | v :: rest => 1 + jsSize v + jsSizeItems rest

def jsSizeFields : List (String × JsValue) → Nat
  | [] => 0
  | (_, v) :: rest => 1 + jsSize v + jsSizeFields rest
end

theorem jsSize_pos (v : JsValue) : 1 ≤ jsSize v := by
  cases v <;> simp only [jsSize] <;> omega

/-- Decimal rendering of an array index, as JavaScript enumerates array
keys (`Object.keys([..])` yields `"0"`, `"1"`, ...). -/
def natKey (n : Nat) : String :=
  if n = 0 then "0"
  else ⟨((Nat.digits 10 n).map (fun d => Char.ofNat (48 + d))).reverse⟩

/-- `typeof value === "object" && value !== null`: true for objects and
arrays. -/
def isRecord : JsValue → Bool
  | .vobj _ => true
  | .varr _ => true
  | _ => false

/-- `Object.entries value` for a record value (arrays enumerate their
elements under decimal index keys). -/
def entriesOf : JsValue → List (String × JsValue)
  | .vobj fs => fs
  | .varr its => (its.enum.map fun p => (natKey p.1, p.2))
  | _ => []

/-- Property access `value[k]` (returns `none` for `undefined`). -/
def jsGet : JsValue → String → Option JsValue
  | .vobj fs, k => fs.lookup k
  | .varr its, k =>
    match k.toNat? with
    | some i => if natKey i = k then its[i]? else none
    | none => none
  | _, _ => none

/-- JavaScript truthiness of a value. -/
def jsTruthy : JsValue → Bool
  | .vstr s => s ≠ ""
  | .vbool b => b
  | .vnum n => n ≠ 0
  | .vnull => false
  | .varr _ => true
  | .vobj _ => true

/-- Truthiness of a possibly-`undefined` value. -/
def optTruthy : Option JsValue → Bool
  | none => false
  | some v => jsTruthy v

/-- Truthiness of a `string | undefined` value (`undefined` and `""` are
falsy). -/
def strTruthy : Option String → Bool
  | none => false
  | some s => s ≠ ""

/-- `asString`: `typeof value === "string" ? value : undefined`. -/
def asString : Option JsValue → Option String
  | some (.vstr s) => some s
  | _ => none

/-- `asBoolean`: `typeof value === "boolean" ? value : undefined`. -/
def asBoolean : Option JsValue → Option Bool
  | some (.vbool b) => some b
  | _ => none

/-- The character class stripped by `String.prototype.trim` (JavaScript
WhiteSpace and LineTerminator code points). -/
def jsWhitespace (c : Char) : Bool :=
  c.toNat ∈ [0x20, 0x09, 0x0a, 0x0d, 0x0b, 0x0c, 0xa0, 0x1680,
    0x2000, 0x2001, 0x2002, 0x2003, 0x2004, 0x2005, 0x2006, 0x2007,
    0x2008, 0x2009, 0x200a, 0x2028, 0x2029, 0x202f, 0x205f, 0x3000,
    0xfeff]

/-- `String.prototype.trim`. -/
def jsTrim (s : String) : String :=
  ⟨((s.data.dropWhile jsWhitespace).reverse.dropWhile jsWhitespace).reverse⟩

/-- `s.startsWith(t)`, over character lists. -/
def strStartsWith (s t : String) : Bool := t.data.isPrefixOf s.data

/-- `s.endsWith(t)`, over character lists. -/
def strEndsWith (s t : String) : Bool := t.data.isSuffixOf s.data

/-- `s.substring(n)`, over character lists. -/
def dropChars (s : String) (n : Nat) : String := ⟨s.data.drop n⟩

/-- `s.substring(0, s.length - n)`, over character lists. -/
def dropRightChars (s : String) (n : Nat) : String :=
  ⟨s.data.take (s.data.length - n)⟩

/-- `String.prototype.split` with a non-empty string separator:
non-overlapping occurrences, scanned left to right.  (The `max 1` in the
drop only affects the empty-separator case, which `splitOnStr` never
reaches.) -/
def splitOnCharsAux (sep : List Char) : List Char → List Char →
    List (List Char)
  | [], acc => [acc.reverse]
  | c :: rest, acc =>
    if sep.isPrefixOf (c :: rest) then
      acc.reverse :: splitOnCharsAux sep ((c :: rest).drop (sep.length.max 1)) []
    else
      splitOnCharsAux sep rest (c :: acc)
termination_by l => l.length
decreasing_by
  · generalize hM : sep.length.max 1 = M
    have h1 : 1 ≤ M := hM ▸ Nat.le_max_right _ _
    have h2 : ((c :: rest).drop M).length = (rest.length + 1) - M := by simp
    have h3 : (c :: rest).length = rest.length + 1 := by simp
    omega
  · simp

def splitOnStr (s sep : String) : List String :=
  if sep.data.isEmpty then [s]
  else (splitOnCharsAux sep.data s.data []).map fun l => ⟨l⟩

/-- `parts.join(sep)`. -/
def joinSep (sep : String) : List String → String
  | [] => ""
  | [x] => x
  | x :: rest => x ++ sep ++ joinSep sep rest

/-- `a.localeCompare(b)`: host/locale-defined (ECMA-402 leaves the collation
implementation-dependent); modelled as code-unit lexicographic comparison. -/
def localeCompare (a b : String) : Int :=
  if a < b then -1 else if b < a then 1 else 0

/-- The ordering relation realised by `sort((a, b) => a.localeCompare(b))`. -/
def strLe (a b : String) : Prop := localeCompare a b ≤ 0

instance : DecidableRel strLe := fun a b => by unfold strLe localeCompare; infer_instance

theorem strLe_iff (a b : String) : strLe a b ↔ a ≤ b := by
  unfold strLe localeCompare
  rcases lt_trichotomy a b with h | h | h
  · simp [h, le_of_lt h]
  · simp [h, not_lt_of_le (le_of_eq h.symm), le_of_eq h]
  · simp [h, not_lt_of_le (le_of_lt h), not_le_of_lt h]

instance : IsTotal String strLe :=
  ⟨fun a b => by rw [strLe_iff, strLe_iff]; exact le_total a b⟩

instance : IsTrans String strLe :=
  ⟨fun a b c hab hbc => by
    rw [strLe_iff] at *; exact le_trans hab hbc⟩

/-- `entries.sort((a, b) => a.localeCompare(b))`: `Array.prototype.sort` is a
stable sort; modelled as stable insertion sort. -/
def jsSortStrings (l : List String) : List String := List.insertionSort strLe l

/-- Insertion-ordered deduplication: the contents of a JavaScript `Set`
built by inserting the elements left to right (`Array.from(new Set(...))`). -/
def dedupFirstAux (seen : List String) : List String → List String
  | [] => []
  | x :: rest =>
    if x ∈ seen then dedupFirstAux seen rest
    else x :: dedupFirstAux (x :: seen) rest

def dedupFirst (l : List String) : List String := dedupFirstAux [] l

/-- JavaScript object spread `{...a, ...b}` over string-keyed plain objects:
keys of `a` in order (values overridden by `b` on conflict), then the keys
of `b` not already in `a`, in order. -/
def spreadMerge (a b : List (String × JsValue)) : List (String × JsValue) :=
  (a.map fun p => match b.lookup p.1 with | some v => (p.1, v) | none => p)
    ++ b.filter fun p => (a.lookup p.1).isNone

/-- The `PackageInfo` record of the source (variant with enrichment fields).
`raw` holds the entry list of the stored raw object. -/
structure PackageInfo where
  id : String
  name : String
  version : Option String := none
  resolved : Option String := none
  integrity : Option String := none
  dev : Option Bool := none
  optional : Option Bool := none
  peer : Option Bool := none
  extraneous : Option Bool := none
  path : Option String := none
  dependencies : Option (List String) := none
  requires : Option (List String) := none
  peerDependencies : Option (List String) := none
  bundledDependencies : Option (List String) := none
  sources : List String := []
  raw : List (String × JsValue) := []
  loading : Bool := true
  isExplicit : Option Bool := none
deriving Repr

/-- `keysOf`: the sorted key set of a record value, `undefined` otherwise or
when empty. -/
def keysOf (value : Option JsValue) : Option (List String) :=
  match value with
  | some w =>
    if isRecord w then
      let entries := (entriesOf w).map (·.1)
      if entries.isEmpty then none else some (jsSortStrings entries)
    else none
  | none => none

/-- `arrayOfStrings`: the string elements of a literal array, `undefined`
otherwise or when none remain. -/
def arrayOfStrings (value : Option JsValue) : Option (List String) :=
  match value with
  | some (.varr items) =>
    let filtered := items.filterMap fun v =>
      match v with | .vstr s => some s | _ => none
    if filtered.isEmpty then none else some filtered
  | _ => none

/-- `deriveNameFromPath`: last `node_modules/`-separated segment of an
installation path, with one trailing `/` stripped. -/
def deriveNameFromPath (packagePath : String) : Option String :=
  if packagePath = "" then none
  else
    let segments := (splitOnStr packagePath "node_modules/").filter (· ≠ "")
    match segments.getLast? with
    | none => none
    | some lastSeg =>
      some (if strEndsWith lastSeg "/" then dropRightChars lastSeg 1
        else lastSeg)

/-- `createId`: deterministic identifier from origin tag and positional
parts, with a counter fallback when all parts are blank. -/
def createId (pre : String) (parts : List (Option String)) (counter : Nat) :
    String × Nat :=
  let slug := joinSep "|"
    ((parts.filterMap id).filter fun part => jsTrim part ≠ "")
  if slug ≠ "" then (pre ++ ":" ++ slug, counter)
  else (pre ++ ":entry-" ++ toString (counter + 1), counter + 1)

/-- `mergeStringArrays`: keep one side when the other is missing/empty,
otherwise set-union and re-sort. -/
def mergeStringArrays (existing incoming : Option (List String)) :
    Option (List String) :=
  match incoming with
  | none => existing
  | some inc =>
    if inc.isEmpty then existing
    else
      match existing with
      | none => some inc
      | some ex =>
        if ex.isEmpty then some inc
        else some (jsSortStrings (dedupFirst (ex ++ inc)))

/-- `mergePackageFields`: fill-if-falsy scalars, fill-if-unset booleans,
union-and-sort list fields, last-write-wins raw bag, union of origins. -/
def mergePackageFields (target source : PackageInfo) : PackageInfo :=
  { target with
    sources := dedupFirst (target.sources ++ source.sources)
    version :=
      if !strTruthy target.version && strTruthy source.version then
        source.version else target.version
    path :=
      if !strTruthy target.path && strTruthy source.path then
        source.path else target.path
    resolved :=
      if !strTruthy target.resolved && strTruthy source.resolved then
        source.resolved else target.resolved
    integrity :=
      if !strTruthy target.integrity && strTruthy source.integrity then
        source.integrity else target.integrity
    dev := if target.dev.isNone && source.dev.isSome then source.dev else target.dev
    optional :=
      if target.optional.isNone && source.optional.isSome then
        source.optional else target.optional
    peer := if target.peer.isNone && source.peer.isSome then source.peer else target.peer
    extraneous :=
      if target.extraneous.isNone && source.extraneous.isSome then
        source.extraneous else target.extraneous
    dependencies := mergeStringArrays target.dependencies source.dependencies
    requires := mergeStringArrays target.requires source.requires
    peerDependencies :=
      mergeStringArrays target.peerDependencies source.peerDependencies
    bundledDependencies :=
      mergeStringArrays target.bundledDependencies source.bundledDependencies
    raw := spreadMerge target.raw source.raw }

/-- `findMatchingId`: the id of the first record (in map insertion order)
with the candidate's name whose version is compatible. -/
def findMatchingId (m : List PackageInfo) (candidate : PackageInfo) :
    Option String :=
  if candidate.name = "" then none
  else
    (m.find? fun existing =>
        existing.name == candidate.name
          && (!strTruthy candidate.version
              || existing.version == candidate.version)).map (·.id)

/-- The mutable extraction context: the id-keyed insertion-ordered
`packagesMap` (each record stored under its `id`) and the id counter. -/
structure ExtractState where
  packagesMap : List PackageInfo := []
  idCounter : Nat := 0
deriving Repr

/-- Merge a candidate into the first record stored under `targetId`. -/
def mergeIntoFirst : List PackageInfo → String → PackageInfo → List PackageInfo
  | [], _, _ => []
  | r :: rest, targetId, candidate =>
    if r.id = targetId then mergePackageFields r candidate :: rest
    else r :: mergeIntoFirst rest targetId candidate

/-- `mergePackageInfo`: look up the merge target (name/version match, else
the candidate's own id); merge into it if present, else insert. -/
def mergePackageInfo (st : ExtractState) (candidate : PackageInfo) :
    ExtractState :=
  let targetId := (findMatchingId st.packagesMap candidate).getD candidate.id
  if (st.packagesMap.find? fun r => r.id == targetId).isSome then
    { st with packagesMap := mergeIntoFirst st.packagesMap targetId candidate }
  else
    { st with packagesMap := st.packagesMap ++ [{ candidate with id := targetId }] }

/-- `createCandidate`: build a candidate record from a metadata object;
`none` when no non-blank name can be derived. -/
def createCandidate (source : String) (nameInput : Option String)
    (infoRecord : JsValue) (path : Option String) (counter : Nat) :
    Option PackageInfo × Nat :=
  let infoName := asString (jsGet infoRecord "name")
  let name := (nameInput.or infoName).getD ""
  let trimmedName := jsTrim name
  if trimmedName = "" then (none, counter)
  else
    let version := asString (jsGet infoRecord "version")
    let (id, counter1) := createId source [path, some trimmedName, version] counter
    (some
      { id := id
        name := trimmedName
        version := version
        resolved := asString (jsGet infoRecord "resolved")
        integrity := asString (jsGet infoRecord "integrity")
        dev := asBoolean (jsGet infoRecord "dev")
        optional := asBoolean (jsGet infoRecord "optional")
        peer := asBoolean (jsGet infoRecord "peer")
        extraneous := asBoolean (jsGet infoRecord "extraneous")
        path := path
        dependencies := keysOf (jsGet infoRecord "dependencies")
        requires := keysOf (jsGet infoRecord "requires")
        peerDependencies := keysOf (jsGet infoRecord "peerDependencies")
        bundledDependencies :=
          (arrayOfStrings (jsGet infoRecord "bundledDependencies")).or
            (arrayOfStrings (jsGet infoRecord "bundleDependencies"))
        sources := [source]
        raw := entriesOf infoRecord
        loading := true
        isExplicit := none }, counter1)

theorem mem_of_lookup {fs : List (String × JsValue)} {k : String} {u : JsValue}
    (h : fs.lookup k = some u) : (k, u) ∈ fs := by
  induction fs with
  | nil => simp [List.lookup] at h
  | cons a rest ih =>
    obtain ⟨k1, v⟩ := a
    by_cases hk : k = k1
    · subst hk
      simp [List.lookup] at h
      simp [h]
    · have hk' : (k == k1) = false := beq_false_of_ne hk
      simp [List.lookup, hk'] at h
      exact List.mem_cons_of_mem _ (ih h)

theorem jsSize_lt_of_mem_fields {fs : List (String × JsValue)}
    {p : String × JsValue} (h : p ∈ fs) : jsSize p.2 < 1 + jsSizeFields fs := by
  induction fs with
  | nil => simp at h
  | cons a rest ih =>
    rcases List.mem_cons.mp h with h1 | h2
    · subst h1; simp only [jsSizeFields]; omega
    · have := ih h2; simp only [jsSizeFields]; omega

theorem jsSize_lt_of_mem_items {its : List JsValue} {u : JsValue}
    (h : u ∈ its) : jsSize u < 1 + jsSizeItems its := by
  induction its with
  | nil => simp at h
  | cons a rest ih =>
    rcases List.mem_cons.mp h with h1 | h2
    · subst h1; simp only [jsSizeItems]; omega
    · have := ih h2; simp only [jsSizeItems]; omega

theorem jsSize_jsGet {v : JsValue} {k : String} {u : JsValue}
    (h : jsGet v k = some u) : jsSize u < jsSize v := by
  cases v with
  | vobj fs =>
    have hm := mem_of_lookup (h := h)
    have := jsSize_lt_of_mem_fields (p := (k, u)) hm
    simpa [jsSize] using this
  | varr its =>
    simp only [jsGet] at h
    rcases hk : k.toNat? with _ | i <;> simp only [hk] at h
    · exact absurd h (by simp)
    · by_cases hik : natKey i = k
      · rw [if_pos hik] at h
        have hm : u ∈ its := List.getElem?_mem h
        have := jsSize_lt_of_mem_items hm
        simpa [jsSize] using this
      · rw [if_neg hik] at h
        exact absurd h (by simp)
  | vstr s => simp [jsGet] at h
  | vbool b => simp [jsGet] at h
  | vnum n => simp [jsGet] at h
  | vnull => simp [jsGet] at h

theorem jsSizeFields_map_pairs (l : List (Nat × JsValue)) :
    jsSizeFields (l.map fun p => (natKey p.1, p.2)) =
      jsSizeItems (l.map Prod.snd) := by
  induction l with
  | nil => simp [jsSizeFields, jsSizeItems]
  | cons a rest ih => simp [jsSizeFields, jsSizeItems, ih]

theorem jsSizeFields_entriesOf (w : JsValue) :
    jsSizeFields (entriesOf w) < jsSize w := by
  cases w with
  | vobj fs => simp only [entriesOf, jsSize]; omega
  | varr its =>
    simp only [entriesOf, jsSize]
    rw [jsSizeFields_map_pairs, List.enum_map_snd]
    omega
  | vstr s => simp [entriesOf, jsSize, jsSizeFields]
  | vbool b => simp [entriesOf, jsSize, jsSizeFields]
  | vnum n => simp [entriesOf, jsSize, jsSizeFields]
  | vnull => simp [entriesOf, jsSize, jsSizeFields]

/-- The entry list that `collectDependencies(depInfo["dependencies"])` would
iterate over: empty whenever the nested `dependencies` value is absent,
falsy, or not a record (all cases in which that call is a no-op). -/
def depNestedEntries (depInfo : JsValue) : List (String × JsValue) :=
  match jsGet depInfo "dependencies" with
  | some nested =>
    if jsTruthy nested && isRecord nested then entriesOf nested else []
  | none => []

theorem jsSizeFields_depNestedEntries (v : JsValue) :
    jsSizeFields (depNestedEntries v) < jsSize v := by
  have hpos := jsSize_pos v
  unfold depNestedEntries
  split
  next nested heq =>
    split
    next =>
      have h1 : jsSize nested < jsSize v := jsSize_jsGet heq
      have h2 := jsSizeFields_entriesOf nested
      omega
    next => simp only [jsSizeFields]; omega
  next => simp only [jsSizeFields]; omega

/-- The candidate-building half of one `collectDependencies` entry step:
non-object values become the legacy shorthand `{version: s}` (or an empty
object); the resulting candidate, if any, is merged in. -/
def depStep (depName : String) (depInfo : JsValue) (st : ExtractState) :
    ExtractState :=
  if isRecord depInfo then
    let c := createCandidate "dependencies" (some depName) depInfo none
      st.idCounter
    match c.1 with
    | some cand => mergePackageInfo { st with idCounter := c.2 } cand
    | none => { st with idCounter := c.2 }
  else
    let infoObject : JsValue :=
      match depInfo with
      | .vstr s => .vobj [("version", .vstr s)]
      | _ => .vobj []
    let c := createCandidate "dependencies" (some depName) infoObject none
      st.idCounter
    match c.1 with
    | some cand => mergePackageInfo { st with idCounter := c.2 } cand
    | none => { st with idCounter := c.2 }

def collectDepEntries : List (String × JsValue) → ExtractState → ExtractState
  | [], st => st
  | (depName, depInfo) :: rest, st =>
    let st1 := depStep depName depInfo st
    let st2 :=
      if isRecord depInfo then
        collectDepEntries (depNestedEntries depInfo) st1
      else st1
    collectDepEntries rest st2
termination_by entries => jsSizeFields entries
decreasing_by
  · have := jsSizeFields_depNestedEntries depInfo
    simp only [jsSizeFields]; omega
  · simp only [jsSizeFields]
    have := jsSize_pos depInfo
    omega

/-- `collectDependencies`: traverse a nested dependency mapping. -/
def collectDependencies (deps : JsValue) (st : ExtractState) : ExtractState :=
  if isRecord deps then collectDepEntries (entriesOf deps) st else st

/-- `collectPackages`, unfolded over the entries of the flat package-path
table. -/
def collectPkgEntries : List (String × JsValue) → ExtractState → ExtractState
  | [], st => st
  | (packagePath, info) :: rest, st =>
    let st1 :=
      if isRecord info then
        let derivedName :=
          (deriveNameFromPath packagePath).or (asString (jsGet info "name"))
        let c := createCandidate "packages" derivedName info
          (if packagePath = "" then none else some packagePath) st.idCounter
        let st2 : ExtractState :=
          match c.1 with
          | some cand => mergePackageInfo { st with idCounter := c.2 } cand
          | none => { st with idCounter := c.2 }
        match jsGet info "dependencies" with
        | some nested =>
          if jsTruthy nested then collectDependencies nested st2 else st2
        | none => st2
      else st
    collectPkgEntries rest st1

/-- `collectPackages`: traverse the flat package-path table. -/
def collectPackages (packages : JsValue) (st : ExtractState) : ExtractState :=
  if isRecord packages then collectPkgEntries (entriesOf packages) st else st

/-- The explicit-dependency name set: keys of the `dependencies` and
`devDependencies` objects of the empty-string root entry of the flat
packages table (lines 801-816 of the source). -/
def explicitNamesOf (lockFile : JsValue) : List String :=
  match jsGet lockFile "packages" with
  | some ps =>
    if isRecord ps then
      match jsGet ps "" with
      | some root =>
        if isRecord root then
          let l1 :=
            match jsGet root "dependencies" with
            | some d => if isRecord d then (entriesOf d).map (·.1) else []
            | none => []
          let l2 :=
            match jsGet root "devDependencies" with
            | some d => if isRecord d then (entriesOf d).map (·.1) else []
            | none => []
          dedupFirst (l1 ++ l2)
        else []
      | none => []
    else []
  | none => []

/-- The key of the final deduplication map. -/
def dedupKey (p : PackageInfo) : String := p.name ++ "__" ++ p.version.getD ""

/-- Merge a package into the first deduplication-map entry stored under
`key`. -/
def mergeIntoFirstKeyed :
    List (String × PackageInfo) → String → PackageInfo →
      List (String × PackageInfo)
  | [], _, _ => []
  | (k, r) :: rest, key, p =>
    if k = key then (k, mergePackageFields r p) :: rest
    else (k, r) :: mergeIntoFirstKeyed rest key p

/-- One step of the final deduplication pass: insert under the
name/version key (setting `isExplicit` on the retained representative) or
merge into the already-retained representative. -/
def dedupInsert (explicitDeps : List String)
    (acc : List (String × PackageInfo)) (p : PackageInfo) :
    List (String × PackageInfo) :=
  let key := dedupKey p
  if (acc.find? fun q => q.1 == key).isSome then
    mergeIntoFirstKeyed acc key p
  else
    acc ++ [(key, { p with isExplicit := some (explicitDeps.contains p.name) })]

/-- The final deduplication pass over the packages-origin records. -/
def dedupPass (explicitDeps : List String) (pkgs : List PackageInfo) :
    List (String × PackageInfo) :=
  pkgs.foldl (dedupInsert explicitDeps) []

/-- The output comparator: name, then version string (absent as `""`). -/
def pkgCmp (a b : PackageInfo) : Int :=
  let nameCompare := localeCompare a.name b.name
  if nameCompare ≠ 0 then nameCompare
  else localeCompare (a.version.getD "") (b.version.getD "")

/-- The ordering relation realised by the final sort. -/
def pkgLe (a b : PackageInfo) : Prop := pkgCmp a b ≤ 0

instance : DecidableRel pkgLe := fun a b => by unfold pkgLe; infer_instance

/-- The tail of the pipeline (lines 827-853 of the source): packages-origin
retention filter, final deduplication pass (which assigns `isExplicit` to
each retained representative), and final sort. -/
def finishPipeline (explicitDeps : List String) (m : List PackageInfo) :
    List PackageInfo :=
  let fromPackages := m.filter fun pkg => pkg.sources.contains "packages"
  List.insertionSort pkgLe ((dedupPass explicitDeps fromPackages).map (·.2))

/-- `extractPackages` (lines 515-854 of the source). -/
def extractPackages (lockFile : JsValue) : List PackageInfo :=
  if isRecord lockFile then
    let explicitDeps := explicitNamesOf lockFile
    let st0 : ExtractState := {}
    let st1 :=
      match jsGet lockFile "packages" with
      | some ps => if jsTruthy ps then collectPackages ps st0 else st0
      | none => st0
    let st2 :=
      match jsGet lockFile "dependencies" with
      | some ds => if jsTruthy ds then collectDependencies ds st1 else st1
      | none => st1
    finishPipeline explicitDeps st2.packagesMap
  else []

/-- The SSH shorthand regex `^git@([^:]+):(.+?)(?:\.git)?$`, applied to the
part after the (already checked) `git@` marker.  The greedy colon-free host
group runs to the first `:`; the lazy path group takes the shortest
non-empty string that lets the optional `.git` tail reach the end, i.e. the
remainder minus one trailing `.git` when the remainder is longer than four
characters and ends with it. -/
def sshMatch (rest : String) : Option (String × String) :=
  let host : List Char := rest.data.takeWhile (· ≠ ':')
  if host.length = rest.data.length then none
  else if host.isEmpty then none
  else
    let p : List Char := rest.data.drop (host.length + 1)
    if p.isEmpty then none
    else
      let path : List Char :=
        if strEndsWith ⟨p⟩ ".git" && decide (4 < p.length) then p.take (p.length - 4)
        else p
      some (⟨host⟩, ⟨path⟩)

/-- Modelled from the WHATWG `new URL(...)` constructor (a host API, not
part of the repository): a simplified parse-validity check.  A string
parses when it has a non-empty ASCII-alphabetic scheme followed by `:`;
for the special web schemes `http`/`https` the authority part (up to the
first `/`, `?` or `#`) must additionally be non-empty, ASCII, and free of
forbidden host code points. -/
def forbiddenHostChar (c : Char) : Bool :=
  c.toNat ∈ [0x00, 0x09, 0x0a, 0x0d, 0x20, 0x23, 0x2f, 0x3a, 0x3c, 0x3e,
    0x3f, 0x40, 0x5b, 0x5c, 0x5d, 0x5e, 0x7c, 0x25]

def urlParses (s : String) : Bool :=
  if strStartsWith s "https://" || strStartsWith s "http://" then
    let rest : List Char :=
      if strStartsWith s "https://" then s.data.drop 8 else s.data.drop 7
    let host := rest.takeWhile fun c => !(c = '/' || c = '?' || c = '#')
    !host.isEmpty && host.all fun c => !forbiddenHostChar c && decide (c.toNat < 128)
  else
    let scheme := s.data.takeWhile (· ≠ ':')
    !scheme.isEmpty && scheme.all (·.isAlpha) && decide (scheme.length < s.data.length)

/-- `normalizeGitUrl` (lines 886-921 of the source). -/
def normalizeGitUrl (gitUrl : String) : Option String :=
  if gitUrl.data.isEmpty then none
  else
    let n0 := jsTrim gitUrl
    let n1 := if strStartsWith n0 "git+" then dropChars n0 4 else n0
    let n2 :=
      if strStartsWith n1 "git://" then "https://" ++ dropChars n1 6 else n1
    let n3opt : Option String :=
      if strStartsWith n2 "git@" then
        match sshMatch (dropChars n2 4) with
        | some (host, path) => some ("https://" ++ host ++ "/" ++ path)
        | none => none
      else some n2
    match n3opt with
    | none => none
    | some n3 =>
      let n4 := if strEndsWith n3 ".git" then dropRightChars n3 4 else n3
      if urlParses n4 then some n4 else none

/-- Decimal value of an all-digit character list, `none` otherwise. -/
def charsToNat? (l : List Char) : Option Nat :=
  if !l.isEmpty && l.all (·.isDigit) then
    some (l.foldl (fun acc c => acc * 10 + (c.toNat - 48)) 0)
  else none

/-- Modelled from the spec: the outdatedness-severity classifier (§4.4),
which is not among the source files under verification (only this
client-side extraction/enrichment code is).  Versions are compared as
dot-separated integer components, non-numeric components coercing to
zero. -/
def versionParts (v : String) : List Int :=
  (splitOnStr v ".").map fun comp =>
    ((charsToNat? comp.data).map Int.ofNat).getD 0

def versionSeverity (current latest : String) : String :=
  if latest = "unknown" then "low"
  else
    let c := versionParts current
    let l := versionParts latest
    let majorDiff := l.getD 0 0 - c.getD 0 0
    let minorDiff := l.getD 1 0 - c.getD 1 0
    if 0 < majorDiff then "critical"
    else if 2 < minorDiff then "high"
    else if 0 < minorDiff then "moderate"
    else "low"

/-! ### Scenario and counterexample inputs -/

/-- The flat-table-only scenario document of the specification (§8). -/
def flatTableDoc : JsValue :=
  .vobj [("packages", .vobj [
    ("", .vobj [("dependencies", .vobj [("x", .vstr "^1.0.0")])]),
    ("node_modules/x", .vobj [("version", .vstr "1.0.0"),
      ("resolved", .vstr "https://example/x-1.0.0.tgz")])])]

/-- A lockfile whose three package-path entries yield the records
`("a__b", –)`, `("a", "b__")` and `("a__b", "b__")`: the first two collide
on the ambiguous deduplication key `"a__b__"`, the merge fills the first
record's version, and the output ends up with two records of identity
`("a__b", "b__")`. -/
def dupIdentityDoc : JsValue :=
  .vobj [("packages", .vobj [
    ("node_modules/a__b", .vobj []),
    ("node_modules/a", .vobj [("version", .vstr "b__")]),
    ("x/node_modules/a__b", .vobj [("version", .vstr "b__")])])]

/-- A lockfile with a literal, unsorted, duplicated bundled-dependency
array. -/
def bundledDoc : JsValue :=
  .vobj [("packages", .vobj [
    ("node_modules/x", .vobj [("version", .vstr "1"),
      ("bundledDependencies", .varr [.vstr "b", .vstr "a", .vstr "b"])])])]

/-- A lockfile whose root entry names the project `x` while a same-named
versionless path entry merges into it and fills its `path`. -/
def rootPathDoc : JsValue :=
  .vobj [("packages", .vobj [
    ("", .vobj [("name", .vstr "x")]),
    ("node_modules/x", .vobj [])])]

/-- A record as `mergePackageInfo` would have stored it for the
dependencies-section entry `"a": {version: "b"}` (generated id
`dependencies:a|b`). -/
def collidingExisting : PackageInfo :=
  { id := "dependencies:a|b", name := "a", version := some "b"
    sources := ["dependencies"] }

/-- The candidate for the entry `"a|b": {}`: a different name, but the
same generated id `dependencies:a|b` (the `|` joiner is ambiguous). -/
def collidingCandidate : PackageInfo :=
  { id := "dependencies:a|b", name := "a|b", sources := ["dependencies"] }

/-- Folding a candidate list through `mergePackageInfo`. -/
def candidateFold (cs : List PackageInfo) (st : ExtractState) : ExtractState :=
  cs.foldl mergePackageInfo st

/-- A versionless packages-origin candidate for `a`. -/
def orderCandA : PackageInfo :=
  { id := "packages:node_modules/a|a", name := "a"
    path := some "node_modules/a", sources := ["packages"] }

/-- A versioned packages-origin candidate for `a`. -/
def orderCandB : PackageInfo :=
  { id := "packages:x/node_modules/a|a|1", name := "a", version := some "1"
    path := some "x/node_modules/a", sources := ["packages"] }

/-! ### Claim theorems -/

/-- C8: on the flat-table-only scenario input, `extractPackages` returns
exactly one record, named `x`, version `1.0.0`, explicit, and with its
enrichment state pending (`loading = true`). -/
theorem extractPackages_flat_table_scenario :
    (extractPackages flatTableDoc).map
      (fun r => (r.name, r.version, r.isExplicit, r.loading))
      = [("x", some "1.0.0", some true, true)] := by
  simp +decide [extractPackages, flatTableDoc, isRecord, explicitNamesOf,
    jsGet, jsTruthy, collectPackages, collectPkgEntries, collectDepEntries,
    collectDependencies, depNestedEntries, depStep, entriesOf,
    deriveNameFromPath, createCandidate, createId, jsTrim, jsWhitespace,
    asString, asBoolean, keysOf, arrayOfStrings, mergePackageInfo,
    findMatchingId, mergeIntoFirst, mergePackageFields, strTruthy,
    finishPipeline, dedupPass, dedupInsert, dedupKey, mergeIntoFirstKeyed,
    List.insertionSort, List.orderedInsert, jsSortStrings, dedupFirst,
    dedupFirstAux, List.lookup, spreadMerge, mergeStringArrays,
    localeCompare, strLe, pkgLe, pkgCmp, splitOnStr, splitOnCharsAux,
    joinSep, strEndsWith, dropRightChars, strStartsWith, dropChars]

/-- C9: the (spec-modelled) outdatedness-severity classification returns
`critical` on a positive major difference, `high` on a minor difference
above 2, `moderate` on any positive minor difference, and `low` otherwise
(equal versions and an unknown latest included). -/
theorem versionSeverity_classification :
    versionSeverity "1.2.0" "2.0.0" = "critical" ∧
    versionSeverity "1.2.0" "1.5.0" = "high" ∧
    versionSeverity "1.2.0" "1.3.0" = "moderate" ∧
    versionSeverity "1.2.0" "unknown" = "low" ∧
    ∀ v : String, versionSeverity v v = "low" := by
  refine ⟨?_, ?_, ?_, ?_, ?_⟩
  · simp +decide [versionSeverity, versionParts, splitOnStr, splitOnCharsAux,
      charsToNat?]
  · simp +decide [versionSeverity, versionParts, splitOnStr, splitOnCharsAux,
      charsToNat?]
  · simp +decide [versionSeverity, versionParts, splitOnStr, splitOnCharsAux,
      charsToNat?]
  · simp [versionSeverity]
  · intro v
    by_cases h : v = "unknown"
    · simp [versionSeverity, h]
    · simp [versionSeverity, h]

/-- C1 (counterexample): on `dupIdentityDoc` the returned list contains two
records with the same `(name, version)` identity, `("a__b", "b__")`: the
deduplication key `name ++ "__" ++ version` is an ambiguous encoding, and a
cross-name key collision merges `("a", "b__")` into the versionless
`("a__b", –)` record, filling its version. -/
theorem extractPackages_identity_collision :
    ¬ ((extractPackages dupIdentityDoc).Pairwise fun a b =>
        (a.name, a.version.getD "") ≠ (b.name, b.version.getD "")) := by
  have heval : (extractPackages dupIdentityDoc).map
      (fun r => (r.name, r.version.getD ""))
      = [("a__b", "b__"), ("a__b", "b__")] := by
    simp +decide [extractPackages, dupIdentityDoc, isRecord, explicitNamesOf,
      jsGet, jsTruthy, collectPackages, collectPkgEntries, collectDepEntries,
      collectDependencies, depNestedEntries, depStep, entriesOf,
      deriveNameFromPath, createCandidate, createId, jsTrim, jsWhitespace,
      asString, asBoolean, keysOf, arrayOfStrings, mergePackageInfo,
      findMatchingId, mergeIntoFirst, mergePackageFields, strTruthy,
      finishPipeline, dedupPass, dedupInsert, dedupKey, mergeIntoFirstKeyed,
      List.insertionSort, List.orderedInsert, jsSortStrings, dedupFirst,
      dedupFirstAux, List.lookup, spreadMerge, mergeStringArrays,
      localeCompare, strLe, pkgLe, pkgCmp, splitOnStr, splitOnCharsAux,
      joinSep, strEndsWith, dropRightChars, strStartsWith, dropChars]
  intro h
  have hp : ((extractPackages dupIdentityDoc).map
      (fun r => (r.name, r.version.getD ""))).Pairwise (· ≠ ·) :=
    (List.pairwise_map).mpr h
  rw [heval] at hp
  simp at hp

/-- C3 (counterexample): with the map holding the record of entry
`"a": {version: "b"}` (id `dependencies:a|b`), the candidate of entry
`"a|b": {}` has no name/version match, yet is not inserted as a new
record: its own generated id collides and it is merged into the unrelated
record, the map still holding only the name `a`. -/
theorem mergePackageInfo_id_collision :
    findMatchingId [collidingExisting] collidingCandidate = none ∧
    ((mergePackageInfo ⟨[collidingExisting], 0⟩
        collidingCandidate).packagesMap.map fun r => r.name) = ["a"] := by
  constructor
  · decide
  · simp +decide [mergePackageInfo, findMatchingId, collidingExisting,
      collidingCandidate, mergeIntoFirst, mergePackageFields,
      mergeStringArrays, dedupFirst, dedupFirstAux, spreadMerge, strTruthy,
      jsSortStrings, List.insertionSort, List.orderedInsert, List.lookup]

/-- C4 (counterexample): the same two candidates folded in the two orders
yield canonical lists of different lengths (two records versus one): with
the versionless candidate first, the versioned one does not match it and
is inserted separately; with the versioned one first, the versionless one
merges into it. -/
theorem candidateFold_order_dependent :
    [orderCandA, orderCandB].Perm [orderCandB, orderCandA] ∧
    (finishPipeline []
      (candidateFold [orderCandA, orderCandB] {}).packagesMap).length = 2 ∧
    (finishPipeline []
      (candidateFold [orderCandB, orderCandA] {}).packagesMap).length = 1 := by
  refine ⟨List.Perm.swap _ _ _, ?_, ?_⟩ <;>
    simp +decide [candidateFold, orderCandA, orderCandB, mergePackageInfo,
      findMatchingId, mergeIntoFirst, mergePackageFields, mergeStringArrays,
      dedupFirst, dedupFirstAux, spreadMerge, strTruthy, jsSortStrings,
      List.insertionSort, List.orderedInsert, List.lookup, finishPipeline,
      dedupPass, dedupInsert, dedupKey, mergeIntoFirstKeyed, pkgLe, pkgCmp,
      localeCompare, strLe]

/-- C6 (counterexample): the record extracted from `bundledDoc` carries the
literal bundled-dependency array `["b", "a", "b"]` — with a duplicate and
not sorted — because `arrayOfStrings` passes the array through untouched. -/
theorem extractPackages_bundled_literal :
    ¬ (∀ r ∈ extractPackages bundledDoc,
        ∀ l, r.bundledDependencies = some l → l.Pairwise (· < ·)) := by
  have heval : (extractPackages bundledDoc).map
      (fun r => r.bundledDependencies) = [some ["b", "a", "b"]] := by
    simp +decide [extractPackages, bundledDoc, isRecord, explicitNamesOf,
      jsGet, jsTruthy, collectPackages, collectPkgEntries, collectDepEntries,
      collectDependencies, depNestedEntries, depStep, entriesOf,
      deriveNameFromPath, createCandidate, createId, jsTrim, jsWhitespace,
      asString, asBoolean, keysOf, arrayOfStrings, mergePackageInfo,
      findMatchingId, mergeIntoFirst, mergePackageFields, strTruthy,
      finishPipeline, dedupPass, dedupInsert, dedupKey, mergeIntoFirstKeyed,
      List.insertionSort, List.orderedInsert, jsSortStrings, dedupFirst,
      dedupFirstAux, List.lookup, spreadMerge, mergeStringArrays,
      localeCompare, strLe, pkgLe, pkgCmp, splitOnStr, splitOnCharsAux,
      joinSep, strEndsWith, dropRightChars, strStartsWith, dropChars]
  intro h
  cases hl : extractPackages bundledDoc with
  | nil => rw [hl] at heval; simp at heval
  | cons r rest =>
    rw [hl] at heval
    simp at heval
    have hb := h r (by rw [hl]; exact List.mem_cons_self r rest)
      ["b", "a", "b"] heval.1
    have hba : ¬ ("b" : String) < "a" := by
      rw [String.lt_iff_toList_lt]; decide
    rcases List.pairwise_cons.mp hb with ⟨hall, _⟩
    exact hba (hall "a" (by simp))

/-- C10 (counterexample): on `rootPathDoc` the root entry (named `x`) is
emitted, but no returned record has name `x` together with an absent path:
the versionless `node_modules/x` entry merges into the root record and
fills its `path`. -/
theorem extractPackages_root_path_filled :
    ¬ (∃ r ∈ extractPackages rootPathDoc, r.name = "x" ∧ r.path = none) := by
  have heval : (extractPackages rootPathDoc).map
      (fun r => (r.name, r.path)) = [("x", some "node_modules/x")] := by
    simp +decide [extractPackages, rootPathDoc, isRecord, explicitNamesOf,
      jsGet, jsTruthy, collectPackages, collectPkgEntries, collectDepEntries,
      collectDependencies, depNestedEntries, depStep, entriesOf,
      deriveNameFromPath, createCandidate, createId, jsTrim, jsWhitespace,
      asString, asBoolean, keysOf, arrayOfStrings, mergePackageInfo,
      findMatchingId, mergeIntoFirst, mergePackageFields, strTruthy,
      finishPipeline, dedupPass, dedupInsert, dedupKey, mergeIntoFirstKeyed,
      List.insertionSort, List.orderedInsert, jsSortStrings, dedupFirst,
      dedupFirstAux, List.lookup, spreadMerge, mergeStringArrays,
      localeCompare, strLe, pkgLe, pkgCmp, splitOnStr, splitOnCharsAux,
      joinSep, strEndsWith, dropRightChars, strStartsWith, dropChars]
  rintro ⟨r, hr, hname, hpath⟩
  have hm : (r.name, r.path) ∈ (extractPackages rootPathDoc).map
      (fun r => (r.name, r.path)) := List.mem_map_of_mem _ hr
  rw [heval, hname, hpath] at hm
  simp at hm

/-- C7 (counterexample): the claim quantifies over every `:`-free host
string, but at the empty host the SSH shorthand regex fails (its host
group needs at least one character) and `normalizeGitUrl` returns `none`
instead of the claimed `https:///owner/repo`. -/
theorem normalizeGitUrl_empty_host :
    normalizeGitUrl ("git@" ++ "" ++ ":" ++ "owner" ++ "/" ++ "repo" ++ ".git")
        ≠ some ("https://" ++ "" ++ "/" ++ "owner" ++ "/" ++ "repo") ∧
    normalizeGitUrl ("git@" ++ "" ++ ":" ++ "owner" ++ "/" ++ "repo" ++ ".git")
        = none := by
  constructor <;> decide

/-! ### Output ordering (C5) -/

/-- The output ordering as the specification states it: ascending
case-sensitive lexicographic name, ties broken by ascending version
string, an absent version read as the empty string (so it sorts before
every non-empty version). -/
def specOutputLe (a b : PackageInfo) : Prop :=
  a.name < b.name ∨ (a.name = b.name ∧ a.version.getD "" ≤ b.version.getD "")

theorem localeCompare_lt {a b : String} (h : a < b) :
    localeCompare a b = -1 := by
  unfold localeCompare; rw [if_pos h]

theorem localeCompare_eq {a b : String} (h : a = b) :
    localeCompare a b = 0 := by
  unfold localeCompare
  rw [if_neg (by simp [h]), if_neg (by simp [h])]

theorem localeCompare_gt {a b : String} (h : b < a) :
    localeCompare a b = 1 := by
  unfold localeCompare
  rw [if_neg (not_lt_of_le (le_of_lt h)), if_pos h]

theorem pkgLe_iff (a b : PackageInfo) : pkgLe a b ↔ specOutputLe a b := by
  unfold pkgLe pkgCmp specOutputLe
  dsimp only
  rcases lt_trichotomy a.name b.name with h | h | h
  · simp [localeCompare_lt h, h]
  · rw [localeCompare_eq h, if_neg (by simp)]
    have hv := strLe_iff (a.version.getD "") (b.version.getD "")
    unfold strLe at hv
    rw [hv]
    constructor
    · intro hle; exact Or.inr ⟨h, hle⟩
    · rintro (hlt | ⟨_, hle⟩)
      · exact absurd hlt (h ▸ lt_irrefl _)
      · exact hle
  · simp [localeCompare_gt h, not_lt_of_le (le_of_lt h), ne_of_gt h]

instance : IsTotal PackageInfo pkgLe :=
  ⟨fun a b => by
    rw [pkgLe_iff, pkgLe_iff]
    rcases lt_trichotomy a.name b.name with h | h | h
    · exact Or.inl (Or.inl h)
    · rcases le_total (a.version.getD "") (b.version.getD "") with hv | hv
      · exact Or.inl (Or.inr ⟨h, hv⟩)
      · exact Or.inr (Or.inr ⟨h.symm, hv⟩)
    · exact Or.inr (Or.inl h)⟩

instance : IsTrans PackageInfo pkgLe :=
  ⟨fun a b c hab hbc => by
    rw [pkgLe_iff] at *
    unfold specOutputLe at *
    rcases hab with h1 | ⟨h1, hv1⟩
    · rcases hbc with h2 | ⟨h2, hv2⟩
      · exact Or.inl (h1.trans h2)
      · exact Or.inl (h2 ▸ h1)
    · rcases hbc with h2 | ⟨h2, hv2⟩
      · exact Or.inl (h1 ▸ h2)
      · exact Or.inr ⟨h1.trans h2, hv1.trans hv2⟩⟩

theorem finishPipeline_sorted (E : List String) (m : List PackageInfo) :
    (finishPipeline E m).Sorted pkgLe :=
  List.sorted_insertionSort pkgLe _

/-- C5: the list returned by `extractPackages` is sorted ascending by name
(case-sensitive lexicographic, under the code-unit model of
`localeCompare`), ties broken by ascending version string, an absent
version sorting before every same-named non-empty version. -/
theorem extractPackages_sorted (doc : JsValue) :
    (extractPackages doc).Sorted specOutputLe := by
  unfold extractPackages
  split
  · exact List.Pairwise.imp (fun h => (pkgLe_iff _ _).mp h)
      (finishPipeline_sorted _ _)
  · exact List.sorted_nil

/-! ### Explicitness (C2) -/

theorem mergePackageFields_name (t s : PackageInfo) :
    (mergePackageFields t s).name = t.name := rfl

theorem mergePackageFields_isExplicit (t s : PackageInfo) :
    (mergePackageFields t s).isExplicit = t.isExplicit := rfl

theorem mem_mergeIntoFirstKeyed {acc : List (String × PackageInfo)}
    {key : String} {p : PackageInfo} {q : String × PackageInfo}
    (h : q ∈ mergeIntoFirstKeyed acc key p) :
    q ∈ acc ∨ ∃ x ∈ acc, q = (x.1, mergePackageFields x.2 p) := by
  induction acc with
  | nil => simp [mergeIntoFirstKeyed] at h
  | cons a rest ih =>
    obtain ⟨k, r⟩ := a
    unfold mergeIntoFirstKeyed at h
    split at h
    · rcases List.mem_cons.mp h with h1 | h1
      · exact Or.inr ⟨(k, r), List.mem_cons_self _ _, h1⟩
      · exact Or.inl (List.mem_cons_of_mem _ h1)
    · rcases List.mem_cons.mp h with h1 | h1
      · exact Or.inl (h1 ▸ List.mem_cons_self _ _)
      · rcases ih h1 with h2 | ⟨x, hx, hq⟩
        · exact Or.inl (List.mem_cons_of_mem _ h2)
        · exact Or.inr ⟨x, List.mem_cons_of_mem _ hx, hq⟩

theorem mem_dedupInsert {E : List String}
    {acc : List (String × PackageInfo)} {p : PackageInfo}
    {q : String × PackageInfo} (h : q ∈ dedupInsert E acc p) :
    q ∈ acc ∨ (∃ x ∈ acc, q = (x.1, mergePackageFields x.2 p)) ∨
      q = (dedupKey p, { p with isExplicit := some (E.contains p.name) }) := by
  unfold dedupInsert at h
  dsimp only at h
  split at h
  · rcases mem_mergeIntoFirstKeyed h with h1 | h1
    · exact Or.inl h1
    · exact Or.inr (Or.inl h1)
  · rcases List.mem_append.mp h with h1 | h1
    · exact Or.inl h1
    · exact Or.inr (Or.inr (by simpa using h1))

/-- Every value stored by the deduplication pass carries
`isExplicit = some (name ∈ explicit set)`. -/
theorem dedupPass_isExplicit (E : List String) (pkgs : List PackageInfo) :
    ∀ q ∈ dedupPass E pkgs, q.2.isExplicit = some (E.contains q.2.name) := by
  suffices hgen : ∀ (acc : List (String × PackageInfo)),
      (∀ q ∈ acc, q.2.isExplicit = some (E.contains q.2.name)) →
      ∀ q ∈ pkgs.foldl (dedupInsert E) acc,
        q.2.isExplicit = some (E.contains q.2.name) by
    exact hgen [] (by simp)
  induction pkgs with
  | nil => intro acc hacc q hq; exact hacc q hq
  | cons p rest ih =>
    intro acc hacc q hq
    refine ih (dedupInsert E acc p) ?_ q hq
    intro q1 hq1
    rcases mem_dedupInsert hq1 with h1 | ⟨x, hx, hq2⟩ | h1
    · exact hacc q1 h1
    · rw [hq2]
      simpa [mergePackageFields_isExplicit, mergePackageFields_name]
        using hacc x hx
    · rw [h1]

theorem mem_finishPipeline {E : List String} {m : List PackageInfo}
    {r : PackageInfo} (h : r ∈ finishPipeline E m) :
    ∃ q ∈ dedupPass E (m.filter fun pkg => pkg.sources.contains "packages"),
      r = q.2 := by
  unfold finishPipeline at h
  have hperm := List.perm_insertionSort pkgLe
    ((dedupPass E (m.filter fun pkg =>
      pkg.sources.contains "packages")).map (·.2))
  have hm := hperm.mem_iff.mp h
  rcases List.mem_map.mp hm with ⟨q, hq, hr⟩
  exact ⟨q, hq, hr.symm⟩

/-- C2: every record returned by `extractPackages` has
`isExplicit = some true` exactly when its name is among the keys of the
root entry's `dependencies`/`devDependencies` objects (the flag being
assigned during the final deduplication pass to the retained
representative only, and never changed by a merge). -/
theorem extractPackages_isExplicit (doc : JsValue) :
    ∀ r ∈ extractPackages doc,
      r.isExplicit = some ((explicitNamesOf doc).contains r.name) := by
  intro r hr
  unfold extractPackages at hr
  split at hr
  · rcases mem_finishPipeline hr with ⟨q, hq, hrq⟩
    rw [hrq]
    exact dedupPass_isExplicit _ _ q hq
  · simp at hr

/-- C2 witness: on the flat-table scenario document the theorem applies
non-vacuously — the single record's flag matches membership of its name in
the explicit set. -/
theorem extractPackages_isExplicit_witness :
    (extractPackages flatTableDoc).length = 1 ∧
    ((extractPackages flatTableDoc).all fun r =>
      r.isExplicit == some ((explicitNamesOf flatTableDoc).contains r.name))
      = true := by
  constructor
  · simp +decide [extractPackages, flatTableDoc, isRecord, explicitNamesOf,
      jsGet, jsTruthy, collectPackages, collectPkgEntries, collectDepEntries,
      collectDependencies, depNestedEntries, depStep, entriesOf,
      deriveNameFromPath, createCandidate, createId, jsTrim, jsWhitespace,
      asString, asBoolean, keysOf, arrayOfStrings, mergePackageInfo,
      findMatchingId, mergeIntoFirst, mergePackageFields, strTruthy,
      finishPipeline, dedupPass, dedupInsert, dedupKey, mergeIntoFirstKeyed,
      List.insertionSort, List.orderedInsert, jsSortStrings, dedupFirst,
      dedupFirstAux, List.lookup, spreadMerge, mergeStringArrays,
      localeCompare, strLe, pkgLe, pkgCmp, splitOnStr, splitOnCharsAux,
      joinSep, strEndsWith, dropRightChars, strStartsWith, dropChars]
  · rw [List.all_eq_true]
    intro r hr
    exact beq_iff_eq.mpr (extractPackages_isExplicit flatTableDoc r hr)

/-! ### Identity uniqueness (C1) -/

theorem strTruthy_false_getD {v : Option String} (h : strTruthy v = false) :
    v.getD "" = "" := by
  cases v with
  | none => rfl
  | some s => simpa [strTruthy] using h

theorem mergePackageFields_version (t s : PackageInfo) :
    (mergePackageFields t s).version =
      if !strTruthy t.version && strTruthy s.version then s.version
      else t.version := rfl

/-- If `pn ++ "__" ++ pv = n ++ "__"` with `pv` non-empty, then `n`
contains an underscore (the delimiter is ambiguous). -/
theorem underscore_of_key_eq {pn pv n : String} (hpv : pv ≠ "")
    (heq : pn ++ "__" ++ pv = n ++ "__") : '_' ∈ n.data := by
  have hd : pn.data ++ '_' :: '_' :: pv.data = n.data ++ ['_', '_'] := by
    have := congrArg String.data heq
    simpa [String.data_append] using this
  have hpv' : pv.data ≠ [] := by
    intro hnil
    exact hpv (by cases pv; simp_all)
  have hlen : n.data.length = pn.data.length + pv.data.length := by
    have h := congrArg List.length hd
    simp only [List.length_append, List.length_cons, List.length_nil] at h
    omega
  have hlt : pn.data.length < n.data.length := by
    have : 1 ≤ pv.data.length := List.length_pos.mpr hpv'
    omega
  have hL : (pn.data ++ '_' :: '_' :: pv.data)[pn.data.length]? = some '_' := by
    rw [List.getElem?_append_right (le_refl _)]
    simp
  rw [hd, List.getElem?_append_left hlt] at hL
  exact List.getElem?_mem hL

/-- The deduplication-map invariant: every entry's key is the dedup key of
its current record, except that a cross-name collision may have filled the
record's version, in which case the key is `name ++ "__"` and the name
provably contains an underscore. -/
def keyInv (q : String × PackageInfo) : Prop :=
  q.1 = dedupKey q.2 ∨ (q.1 = q.2.name ++ "__" ∧ '_' ∈ q.2.name.data)

theorem mergeIntoFirstKeyed_keys (acc : List (String × PackageInfo))
    (key : String) (p : PackageInfo) :
    (mergeIntoFirstKeyed acc key p).map (·.1) = acc.map (·.1) := by
  induction acc with
  | nil => rfl
  | cons a rest ih =>
    obtain ⟨k, r⟩ := a
    unfold mergeIntoFirstKeyed
    split <;> simp [ih]

theorem mem_mergeIntoFirstKeyed_strong {acc : List (String × PackageInfo)}
    {key : String} {p : PackageInfo} {q : String × PackageInfo}
    (h : q ∈ mergeIntoFirstKeyed acc key p) :
    q ∈ acc ∨ ∃ x ∈ acc, x.1 = key ∧ q = (x.1, mergePackageFields x.2 p) := by
  induction acc with
  | nil => simp [mergeIntoFirstKeyed] at h
  | cons a rest ih =>
    obtain ⟨k, r⟩ := a
    unfold mergeIntoFirstKeyed at h
    split at h
    · rcases List.mem_cons.mp h with h1 | h1
      · rename_i hk
        exact Or.inr ⟨(k, r), List.mem_cons_self _ _, hk, h1⟩
      · exact Or.inl (List.mem_cons_of_mem _ h1)
    · rcases List.mem_cons.mp h with h1 | h1
      · exact Or.inl (h1 ▸ List.mem_cons_self _ _)
      · rcases ih h1 with h2 | ⟨x, hx, hxk, hq⟩
        · exact Or.inl (List.mem_cons_of_mem _ h2)
        · exact Or.inr ⟨x, List.mem_cons_of_mem _ hx, hxk, hq⟩

theorem keyInv_merge {k : String} {r p : PackageInfo}
    (hinv : keyInv (k, r)) (hk : k = dedupKey p) :
    keyInv (k, mergePackageFields r p) := by
  unfold keyInv at hinv ⊢
  dsimp only at hinv ⊢
  by_cases hfill : (!strTruthy r.version && strTruthy p.version) = true
  · -- the merge fills the version: the keys collide across names
    have hrf : strTruthy r.version = false := by
      rcases Bool.and_eq_true_iff.mp hfill with ⟨h1, _⟩
      simpa using h1
    have hpt : strTruthy p.version = true :=
      (Bool.and_eq_true_iff.mp hfill).2
    have hrkey : k = r.name ++ "__" := by
      rcases hinv with h1 | ⟨h1, _⟩
      · rw [h1]
        unfold dedupKey
        rw [strTruthy_false_getD hrf, String.append_empty]
      · exact h1
    have hpv : p.version.getD "" ≠ "" := by
      cases hv : p.version with
      | none => rw [hv] at hpt; simp [strTruthy] at hpt
      | some s =>
        rw [hv] at hpt
        simpa [strTruthy] using hpt
    have hu : '_' ∈ r.name.data := by
      refine @underscore_of_key_eq p.name (p.version.getD "") r.name hpv ?_
      rw [← hrkey, hk]
      rfl
    refine Or.inr ⟨?_, ?_⟩
    · rw [hrkey]; rfl
    · simpa [mergePackageFields_name] using hu
  · -- version unchanged: the key description carries over
    have hver : (mergePackageFields r p).version = r.version := by
      rw [mergePackageFields_version, if_neg hfill]
    rcases hinv with h1 | ⟨h1, h2⟩
    · refine Or.inl ?_
      unfold dedupKey at *
      rw [mergePackageFields_name, hver]
      exact h1
    · exact Or.inr ⟨by rw [mergePackageFields_name]; exact h1,
        by rw [mergePackageFields_name]; exact h2⟩

theorem dedupPass_inv (E : List String) (pkgs : List PackageInfo) :
    ((dedupPass E pkgs).map (·.1)).Nodup ∧
      ∀ q ∈ dedupPass E pkgs, keyInv q := by
  suffices hgen : ∀ (acc : List (String × PackageInfo)),
      (acc.map (·.1)).Nodup → (∀ q ∈ acc, keyInv q) →
      ((pkgs.foldl (dedupInsert E) acc).map (·.1)).Nodup ∧
        ∀ q ∈ pkgs.foldl (dedupInsert E) acc, keyInv q by
    exact hgen [] (by simp) (by simp)
  induction pkgs with
  | nil => intro acc h1 h2; exact ⟨h1, h2⟩
  | cons p rest ih =>
    intro acc h1 h2
    refine ih (dedupInsert E acc p) ?_ ?_
    · unfold dedupInsert
      dsimp only
      split
      · rw [mergeIntoFirstKeyed_keys]; exact h1
      · rename_i hfind
        have hnone : List.find? (fun q => q.1 == dedupKey p) acc = none := by
          cases hf : List.find? (fun q => q.1 == dedupKey p) acc with
          | none => rfl
          | some x => rw [hf] at hfind; simp at hfind
        have hnotin : dedupKey p ∉ acc.map (·.1) := by
          intro hmem
          rcases List.mem_map.mp hmem with ⟨x, hx, hxk⟩
          have := List.find?_eq_none.mp hnone x hx
          simp [hxk] at this
        simp only [List.map_append, List.map_cons, List.map_nil]
        rw [List.nodup_append]
        refine ⟨h1, by simp, ?_⟩
        intro a ha hb
        simp at hb
        subst hb
        exact hnotin ha
    · intro q hq
      unfold dedupInsert at hq
      dsimp only at hq
      split at hq
      · rcases mem_mergeIntoFirstKeyed_strong hq with h | ⟨x, hx, hxk, hqx⟩
        · exact h2 q h
        · rw [hqx]
          exact keyInv_merge (h2 x hx) hxk
      · rcases List.mem_append.mp hq with h | h
        · exact h2 q h
        · have hq1 : q = (dedupKey p,
              { p with isExplicit := some (E.contains p.name) }) := by
            simpa using h
          rw [hq1]
          exact Or.inl rfl

theorem dedupPass_values_pairwise (E : List String)
    (pkgs : List PackageInfo)
    (hout : ∀ q ∈ dedupPass E pkgs, '_' ∉ q.2.name.data) :
    ((dedupPass E pkgs).map (·.2)).Pairwise fun a b =>
      (a.name, a.version.getD "") ≠ (b.name, b.version.getD "") := by
  obtain ⟨hnd, hinv⟩ := dedupPass_inv E pkgs
  rw [List.pairwise_map]
  have hkeys : (dedupPass E pkgs).Pairwise fun q1 q2 => q1.1 ≠ q2.1 :=
    (List.pairwise_map).mp hnd
  refine List.Pairwise.imp_of_mem ?_ hkeys
  intro q1 q2 h1 h2 hne hpair
  rcases hinv q1 h1 with hk1 | ⟨_, hu1⟩
  · rcases hinv q2 h2 with hk2 | ⟨_, hu2⟩
    · apply hne
      rw [hk1, hk2]
      unfold dedupKey
      have hn : q1.2.name = q2.2.name := congrArg Prod.fst hpair
      have hv : q1.2.version.getD "" = q2.2.version.getD "" :=
        congrArg Prod.snd hpair
      rw [hn, hv]
    · exact (hout q2 h2 hu2).elim
  · exact (hout q1 h1 hu1).elim

theorem finishPipeline_identity_unique (E : List String)
    (m : List PackageInfo)
    (h : ∀ r ∈ finishPipeline E m, '_' ∉ r.name.data) :
    (finishPipeline E m).Pairwise fun a b =>
      (a.name, a.version.getD "") ≠ (b.name, b.version.getD "") := by
  unfold finishPipeline at h ⊢
  have hperm := List.perm_insertionSort pkgLe
    ((dedupPass E (m.filter fun pkg =>
      pkg.sources.contains "packages")).map (·.2))
  refine (hperm.pairwise_iff (fun {a b} hab hba => hab hba.symm)).mpr ?_
  refine dedupPass_values_pairwise E _ ?_
  intro q hq
  exact h q.2 (hperm.mem_iff.mpr (List.mem_map_of_mem _ hq))

/-- C1 (amended): no two records returned by `extractPackages` share the
same `(name, version-or-empty)` identity, provided no returned record's
name contains an underscore (so that the `name ++ "__" ++ version`
deduplication key cannot collide across identities). -/
theorem extractPackages_identity_unique (doc : JsValue)
    (h : ∀ r ∈ extractPackages doc, '_' ∉ r.name.data) :
    (extractPackages doc).Pairwise fun a b =>
      (a.name, a.version.getD "") ≠ (b.name, b.version.getD "") := by
  revert h
  unfold extractPackages
  split
  · intro h
    exact finishPipeline_identity_unique _ _ h
  · intro _
    exact List.Pairwise.nil

/-- C1 witness: on the flat-table scenario document (whose single record is
named `x`, underscore-free) the amended theorem applies. -/
theorem extractPackages_identity_unique_witness :
    (extractPackages flatTableDoc).map (fun r => r.name) = ["x"] ∧
    ((extractPackages flatTableDoc).Pairwise fun a b =>
      (a.name, a.version.getD "") ≠ (b.name, b.version.getD "")) := by
  have hnames : (extractPackages flatTableDoc).map (fun r => r.name)
      = ["x"] := by
    simp +decide [extractPackages, flatTableDoc, isRecord, explicitNamesOf,
      jsGet, jsTruthy, collectPackages, collectPkgEntries, collectDepEntries,
      collectDependencies, depNestedEntries, depStep, entriesOf,
      deriveNameFromPath, createCandidate, createId, jsTrim, jsWhitespace,
      asString, asBoolean, keysOf, arrayOfStrings, mergePackageInfo,
      findMatchingId, mergeIntoFirst, mergePackageFields, strTruthy,
      finishPipeline, dedupPass, dedupInsert, dedupKey, mergeIntoFirstKeyed,
      List.insertionSort, List.orderedInsert, jsSortStrings, dedupFirst,
      dedupFirstAux, List.lookup, spreadMerge, mergeStringArrays,
      localeCompare, strLe, pkgLe, pkgCmp, splitOnStr, splitOnCharsAux,
      joinSep, strEndsWith, dropRightChars, strStartsWith, dropChars]
  refine ⟨hnames, extractPackages_identity_unique flatTableDoc ?_⟩
  intro r hr
  have hm : r.name ∈ ["x"] := hnames ▸ List.mem_map_of_mem _ hr
  simp at hm
  rw [hm]
  decide

/-! ### Merge-target characterisation (C3) -/

/-- The name/version compatibility test of `findMatchingId`, as a
proposition. -/
def versionMatch (c existing : PackageInfo) : Prop :=
  existing.name = c.name ∧
    (strTruthy c.version = false ∨ existing.version = c.version)

theorem versionMatch_iff (c existing : PackageInfo) :
    (existing.name == c.name
      && (!strTruthy c.version || existing.version == c.version)) = true
      ↔ versionMatch c existing := by
  unfold versionMatch
  simp [Bool.and_eq_true, Bool.or_eq_true, Bool.not_eq_true']

theorem find?_over_append {α : Type} (p : α → Bool) (pre : List α) (r : α)
    (post : List α) (hpre : ∀ x ∈ pre, p x = false) (hr : p r = true) :
    List.find? p (pre ++ r :: post) = some r := by
  induction pre with
  | nil => simp [List.find?, hr]
  | cons a rest ih =>
    have ha : p a = false := hpre a (List.mem_cons_self _ _)
    simp only [List.cons_append, List.find?, ha]
    exact ih fun x hx => hpre x (List.mem_cons_of_mem _ hx)

theorem mergeIntoFirst_over_append (pre : List PackageInfo)
    (r : PackageInfo) (post : List PackageInfo) (tid : String)
    (c : PackageInfo) (hpre : ∀ x ∈ pre, x.id ≠ tid) (hr : r.id = tid) :
    mergeIntoFirst (pre ++ r :: post) tid c =
      pre ++ mergePackageFields r c :: post := by
  induction pre with
  | nil => simp [mergeIntoFirst, hr]
  | cons a rest ih =>
    have ha : a.id ≠ tid := hpre a (List.mem_cons_self _ _)
    simp only [List.cons_append, mergeIntoFirst, if_neg ha]
    exact congrArg (a :: ·) (ih fun x hx => hpre x (List.mem_cons_of_mem _ hx))

/-- C3 (amended): `mergePackageInfo` merges the candidate into the first
record, in insertion order, whose name equals the candidate's and whose
version is compatible (candidate version falsy, or equal — note a
present-but-empty candidate version also matches any record); when no such
record exists the candidate is inserted as a new record under its own
generated identifier — unless an unrelated record already bears that
identifier (the `|` joiner of `createId` is ambiguous), in which case the
candidate is merged into that record instead. -/
theorem mergePackageInfo_first_match (st : ExtractState) (c : PackageInfo)
    (hnodup : (st.packagesMap.map (·.id)).Nodup) (hname : c.name ≠ "") :
    (∀ pre r post, st.packagesMap = pre ++ r :: post →
      (∀ x ∈ pre, ¬ versionMatch c x) → versionMatch c r →
      (mergePackageInfo st c).packagesMap =
        pre ++ mergePackageFields r c :: post) ∧
    ((∀ x ∈ st.packagesMap, ¬ versionMatch c x) →
      c.id ∉ st.packagesMap.map (·.id) →
      (mergePackageInfo st c).packagesMap = st.packagesMap ++ [c]) ∧
    ((∀ x ∈ st.packagesMap, ¬ versionMatch c x) →
      ∀ pre r post, st.packagesMap = pre ++ r :: post →
      (∀ x ∈ pre, x.id ≠ c.id) → r.id = c.id →
      (mergePackageInfo st c).packagesMap =
        pre ++ mergePackageFields r c :: post) := by
  refine ⟨?_, ?_, ?_⟩
  · intro pre r post hsplit hpre hr
    have hfind : findMatchingId st.packagesMap c = some r.id := by
      unfold findMatchingId
      rw [if_neg hname, hsplit]
      rw [find?_over_append _ pre r post
        (fun x hx => by
          have := hpre x hx
          rcases hb : (x.name == c.name
            && (!strTruthy c.version || x.version == c.version)) with _ | _
          · rfl
          · exact absurd ((versionMatch_iff c x).mp hb) this)
        ((versionMatch_iff c r).mpr hr)]
      rfl
    have hrid : r.id ∈ st.packagesMap.map (·.id) := by
      rw [hsplit]; simp
    have hsome : (st.packagesMap.find? fun x => x.id == r.id).isSome = true := by
      rw [List.find?_isSome]
      refine ⟨r, ?_, by simp⟩
      rw [hsplit]; simp
    unfold mergePackageInfo
    rw [hfind]
    dsimp only [Option.getD]
    rw [if_pos hsome, hsplit]
    refine mergeIntoFirst_over_append pre r post r.id c ?_ rfl
    intro x hx
    rw [hsplit] at hnodup
    intro hxid
    have hnd := hnodup
    rw [List.map_append, List.map_cons, List.nodup_append] at hnd
    have hmem : r.id ∈ pre.map (fun y => y.id) := by
      rw [← hxid]
      exact List.mem_map_of_mem _ hx
    exact hnd.2.2 hmem (by simp)
  · intro hall hnotin
    have hfind : findMatchingId st.packagesMap c = none := by
      unfold findMatchingId
      rw [if_neg hname]
      rw [List.find?_eq_none.mpr fun x hx hb =>
        hall x hx ((versionMatch_iff c x).mp hb)]
      rfl
    have hnone : (st.packagesMap.find? fun x => x.id == c.id).isSome = false := by
      rw [Bool.eq_false_iff]
      intro hsome
      rw [List.find?_isSome] at hsome
      rcases hsome with ⟨x, hx, hxid⟩
      exact hnotin (by
        have : x.id = c.id := by simpa using hxid
        exact this ▸ List.mem_map_of_mem _ hx)
    unfold mergePackageInfo
    rw [hfind]
    dsimp only [Option.getD]
    rw [if_neg (by rw [hnone]; exact Bool.false_ne_true)]
  · intro hall pre r post hsplit hpre hr
    have hfind : findMatchingId st.packagesMap c = none := by
      unfold findMatchingId
      rw [if_neg hname]
      rw [List.find?_eq_none.mpr fun x hx hb =>
        hall x hx ((versionMatch_iff c x).mp hb)]
      rfl
    have hsome : (st.packagesMap.find? fun x => x.id == c.id).isSome = true := by
      rw [List.find?_isSome]
      refine ⟨r, ?_, by simp [hr]⟩
      rw [hsplit]; simp
    unfold mergePackageInfo
    rw [hfind]
    dsimp only [Option.getD]
    rw [if_pos hsome, hsplit]
    exact mergeIntoFirst_over_append pre r post c.id c hpre hr

/-- A candidate matching `collidingExisting` by name with a falsy version. -/
def matchingCandidate : PackageInfo :=
  { id := "dependencies:a", name := "a", sources := ["dependencies"] }

/-- C3 witness: with the map holding only `collidingExisting`, the matching
candidate is merged into it (the first conjunct of the characterisation,
applied at `pre = post = []`). -/
theorem mergePackageInfo_first_match_witness :
    ([collidingExisting].map (·.id)).Nodup ∧
    (mergePackageInfo ⟨[collidingExisting], 0⟩
        matchingCandidate).packagesMap
      = [mergePackageFields collidingExisting matchingCandidate] := by
  refine ⟨by decide, ?_⟩
  have h := (mergePackageInfo_first_match ⟨[collidingExisting], 0⟩
    matchingCandidate (by decide) (by decide)).1
    [] collidingExisting [] rfl (by simp)
    ((versionMatch_iff _ _).mp (by decide))
  simpa using h

/-! ### SSH URL normalisation (C7) -/

/-- The host characters assumed by the amended claim: ASCII alphanumerics,
`-` and `.` (all of which the WHATWG host parser accepts). -/
def urlHostChar (c : Char) : Bool :=
  (48 ≤ c.toNat && c.toNat ≤ 57) || (65 ≤ c.toNat && c.toNat ≤ 90)
    || (97 ≤ c.toNat && c.toNat ≤ 122) || c.toNat == 45 || c.toNat == 46

theorem urlHostChar_spec {c : Char} (h : urlHostChar c = true) :
    c.toNat = 45 ∨ c.toNat = 46 ∨ (48 ≤ c.toNat ∧ c.toNat ≤ 57) ∨
      (65 ≤ c.toNat ∧ c.toNat ≤ 90) ∨ (97 ≤ c.toNat ∧ c.toNat ≤ 122) := by
  unfold urlHostChar at h
  simp only [Bool.or_eq_true, Bool.and_eq_true, decide_eq_true_eq,
    beq_iff_eq] at h
  tauto

theorem urlHostChar_ne {c : Char} (h : urlHostChar c = true) {d : Char}
    (hd : d.toNat = 35 ∨ d.toNat = 47 ∨ d.toNat = 58 ∨ d.toNat = 63) :
    c ≠ d := by
  intro hcd
  have hspec := urlHostChar_spec h
  rw [hcd] at hspec
  omega

theorem takeWhile_append_stop {p : Char → Bool} {l : List Char} {a : Char}
    {r : List Char} (hl : ∀ c ∈ l, p c = true) (ha : p a = false) :
    (l ++ a :: r).takeWhile p = l := by
  induction l with
  | nil => simp [List.takeWhile_cons, ha]
  | cons c rest ih =>
    have hc := hl c (List.mem_cons_self _ _)
    simp [List.takeWhile_cons, hc,
      ih fun x hx => hl x (List.mem_cons_of_mem _ hx)]

theorem jsTrim_of_ends (c1 : Char) (l : List Char) (c2 : Char)
    (h1 : jsWhitespace c1 = false) (h2 : jsWhitespace c2 = false) :
    jsTrim ⟨c1 :: (l ++ [c2])⟩ = ⟨c1 :: (l ++ [c2])⟩ := by
  unfold jsTrim
  refine congrArg String.mk ?_
  show (((c1 :: (l ++ [c2])).dropWhile jsWhitespace).reverse.dropWhile
    jsWhitespace).reverse = c1 :: (l ++ [c2])
  have hA : (c1 :: (l ++ [c2])).dropWhile jsWhitespace = c1 :: (l ++ [c2]) := by
    simp [List.dropWhile_cons, h1]
  rw [hA]
  have hB : (c1 :: (l ++ [c2])).reverse = c2 :: (l.reverse ++ [c1]) := by
    simp
  rw [hB]
  have hC : (c2 :: (l.reverse ++ [c1])).dropWhile jsWhitespace
      = c2 :: (l.reverse ++ [c1]) := by
    simp [List.dropWhile_cons, h2]
  rw [hC, ← hB, List.reverse_reverse]

/-- A character list of the form `front ++ '/' :: repo` where `repo` does
not end in `.git` never has `.git` as a suffix. -/
theorem no_dotgit_suffix {front : List Char} {repo : String}
    (hrepo : strEndsWith repo ".git" = false)
    (hsuf : ['.', 'g', 'i', 't'] <:+ (front ++ '/' :: repo.data)) : False := by
  have hpre : (['.', 'g', 'i', 't'] : List Char).reverse <+:
      (front ++ '/' :: repo.data).reverse := List.reverse_prefix.mpr hsuf
  have hshape : (front ++ '/' :: repo.data).reverse
      = repo.data.reverse ++ '/' :: front.reverse := by
    simp
  rw [hshape] at hpre
  have hpre2 : (['t', 'i', 'g', '.'] : List Char)
      = (repo.data.reverse ++ '/' :: front.reverse).take 4 := by
    have := List.prefix_iff_eq_take.mp hpre
    simpa using this
  by_cases h4 : 4 ≤ repo.data.reverse.length
  · rw [List.take_append_of_le_length h4] at hpre2
    have hpre3 : (['t', 'i', 'g', '.'] : List Char) <+: repo.data.reverse :=
      List.prefix_iff_eq_take.mpr (by simpa using hpre2)
    have hsf : ['.', 'g', 'i', 't'] <:+ repo.data := by
      rw [← List.reverse_prefix]
      simpa using hpre3
    have hend : strEndsWith repo ".git" = true := by
      unfold strEndsWith
      exact List.isSuffixOf_iff_suffix.mpr (by simpa using hsf)
    rw [hend] at hrepo
    simp at hrepo
  · push_neg at h4
    rw [List.take_append_eq_append_take,
      List.take_of_length_le (le_of_lt h4)] at hpre2
    have hmem : '/' ∈ (['t', 'i', 'g', '.'] : List Char) := by
      rw [hpre2]
      refine List.mem_append_right _ ?_
      cases hn : 4 - repo.data.reverse.length with
      | zero => omega
      | succ m =>
        rw [List.take_succ_cons]
        exact List.mem_cons_self _ _
    simp at hmem

/-- C7 (amended): for every non-empty host of valid URL host characters
(hence `:`-free) and non-empty owner/repo segments with `repo` not itself
ending in `.git`, `normalizeGitUrl` rewrites the SSH shorthand
`git@host:owner/repo.git` to `https://host/owner/repo`. -/
theorem normalizeGitUrl_ssh (host owner repo : String)
    (hhost : host ≠ "") (hchars : ∀ c ∈ host.data, urlHostChar c = true)
    (howner : owner ≠ "") (hrepo : repo ≠ "")
    (hgit : strEndsWith repo ".git" = false) :
    normalizeGitUrl ("git@" ++ host ++ ":" ++ owner ++ "/" ++ repo ++ ".git")
      = some ("https://" ++ host ++ "/" ++ owner ++ "/" ++ repo) := by
  set s : String := "git@" ++ host ++ ":" ++ owner ++ "/" ++ repo ++ ".git"
    with hs
  have hdata : s.data = 'g' :: 'i' :: 't' :: '@' ::
      (host.data ++ ':' :: (owner.data ++ '/' ::
        (repo.data ++ ['.', 'g', 'i', 't']))) := by
    rw [hs]
    show ("git@" ++ host ++ ":" ++ owner ++ "/" ++ repo ++ ".git").data = _
    simp [String.data_append]
  have hdata2 : s.data = 'g' :: (('i' :: 't' :: '@' ::
      (host.data ++ ':' :: (owner.data ++ '/' ::
        (repo.data ++ ['.', 'g', 'i'])))) ++ ['t']) := by
    rw [hdata]
    simp
  have hne : s.data.isEmpty = false := by rw [hdata]; rfl
  have htrim : jsTrim s = s := by
    have hrep : s = ⟨'g' :: (('i' :: 't' :: '@' ::
        (host.data ++ ':' :: (owner.data ++ '/' ::
          (repo.data ++ ['.', 'g', 'i'])))) ++ ['t'])⟩ := String.ext hdata2
    rw [hrep]
    exact jsTrim_of_ends 'g' _ 't' (by decide) (by decide)
  have hplus : strStartsWith s "git+" = false := by
    unfold strStartsWith
    rw [hdata]
    rfl
  have hgitcolon : strStartsWith s "git://" = false := by
    unfold strStartsWith
    rw [hdata]
    rfl
  have hgat : strStartsWith s "git@" = true := by
    unfold strStartsWith
    rw [hdata]
    have h4 : ("git@" : String).data = ['g', 'i', 't', '@'] := rfl
    rw [h4]
    simp [List.isPrefixOf]
  have hdropped : dropChars s 4 = ⟨host.data ++ ':' :: (owner.data ++ '/' ::
      (repo.data ++ ['.', 'g', 'i', 't']))⟩ := by
    unfold dropChars
    refine congrArg String.mk ?_
    rw [hdata]
    rfl
  have hhd : host.data ≠ [] := by
    intro hnil
    exact hhost (String.ext (hnil.trans rfl))
  have hssh : sshMatch ⟨host.data ++ ':' :: (owner.data ++ '/' ::
      (repo.data ++ ['.', 'g', 'i', 't']))⟩
      = some (host, ⟨owner.data ++ '/' :: repo.data⟩) := by
    unfold sshMatch
    dsimp only
    have htw : (host.data ++ ':' :: (owner.data ++ '/' ::
        (repo.data ++ ['.', 'g', 'i', 't']))).takeWhile
          (fun c => decide ¬(c = ':')) = host.data := by
      refine takeWhile_append_stop ?_ (by simp)
      intro c hc
      exact decide_eq_true
        (urlHostChar_ne (d := ':') (hchars c hc) (Or.inr (Or.inr (Or.inl (by decide)))))
    rw [htw]
    have hlenne : host.data.length ≠ (host.data ++ ':' :: (owner.data ++ '/' ::
        (repo.data ++ ['.', 'g', 'i', 't']))).length := by
      simp
    rw [if_neg hlenne, if_neg (by simpa using hhd)]
    have hassoc : host.data ++ ':' :: (owner.data ++ '/' ::
        (repo.data ++ ['.', 'g', 'i', 't']))
        = (host.data ++ [':']) ++ (owner.data ++ '/' ::
          (repo.data ++ ['.', 'g', 'i', 't'])) := by
      simp
    have hdrop : (host.data ++ ':' :: (owner.data ++ '/' ::
        (repo.data ++ ['.', 'g', 'i', 't']))).drop (host.data.length + 1)
        = owner.data ++ '/' :: (repo.data ++ ['.', 'g', 'i', 't']) := by
      rw [hassoc]
      have hlen1 : (host.data ++ [':']).length = host.data.length + 1 := by
        simp
      rw [← hlen1, List.drop_left]
    rw [hdrop]
    rw [if_neg (by simp)]
    have hq : owner.data ++ '/' :: (repo.data ++ ['.', 'g', 'i', 't'])
        = (owner.data ++ '/' :: repo.data) ++ ['.', 'g', 'i', 't'] := by
      simp
    have hEnds : strEndsWith ⟨owner.data ++ '/' ::
        (repo.data ++ ['.', 'g', 'i', 't'])⟩ ".git" = true := by
      unfold strEndsWith
      refine List.isSuffixOf_iff_suffix.mpr ?_
      exact ⟨owner.data ++ '/' :: repo.data, by simp⟩
    have hlen4 : 4 < (owner.data ++ '/' ::
        (repo.data ++ ['.', 'g', 'i', 't'])).length := by
      simp
      omega
    rw [if_pos (by rw [hEnds]; simpa using hlen4)]
    have htake : (owner.data ++ '/' ::
        (repo.data ++ ['.', 'g', 'i', 't'])).take
          ((owner.data ++ '/' :: (repo.data ++ ['.', 'g', 'i', 't'])).length
            - 4)
        = owner.data ++ '/' :: repo.data := by
      rw [hq]
      have hplen : ((owner.data ++ '/' :: repo.data)
          ++ ['.', 'g', 'i', 't']).length - 4
          = (owner.data ++ '/' :: repo.data).length := by
        simp
        omega
      rw [hplen, List.take_left]
    rw [htake]
  have hn3data : ("https://" ++ host ++ "/" ++
      (⟨owner.data ++ '/' :: repo.data⟩ : String)).data
      = ['h', 't', 't', 'p', 's', ':', '/', '/'] ++
        (host.data ++ '/' :: (owner.data ++ '/' :: repo.data)) := by
    simp [String.data_append]
  have hnoend : strEndsWith ("https://" ++ host ++ "/" ++
      (⟨owner.data ++ '/' :: repo.data⟩ : String)) ".git" = false := by
    unfold strEndsWith
    rw [Bool.eq_false_iff]
    intro hsome
    have hsuf := List.isSuffixOf_iff_suffix.mp hsome
    rw [hn3data] at hsuf
    refine @no_dotgit_suffix (['h', 't', 't', 'p', 's', ':', '/', '/']
      ++ host.data ++ '/' :: owner.data) repo hgit ?_
    simpa [List.append_assoc] using hsuf
  have hurl : urlParses ("https://" ++ host ++ "/" ++
      (⟨owner.data ++ '/' :: repo.data⟩ : String)) = true := by
    unfold urlParses
    have hpre8 : strStartsWith ("https://" ++ host ++ "/" ++
        (⟨owner.data ++ '/' :: repo.data⟩ : String)) "https://" = true := by
      unfold strStartsWith
      refine (List.isPrefixOf_iff_prefix).mpr ?_
      exact ⟨host.data ++ '/' :: (owner.data ++ '/' :: repo.data),
        by rw [hn3data]⟩
    rw [if_pos (by rw [hpre8]; rfl)]
    dsimp only
    rw [if_pos hpre8]
    have hdrop8 : ("https://" ++ host ++ "/" ++
        (⟨owner.data ++ '/' :: repo.data⟩ : String)).data.drop 8
        = host.data ++ '/' :: (owner.data ++ '/' :: repo.data) := by
      rw [hn3data]
      rfl
    rw [hdrop8]
    have htw2 : (host.data ++ '/' :: (owner.data ++ '/' ::
        repo.data)).takeWhile
          (fun c => !(decide (c = '/') || decide (c = '?')
            || decide (c = '#'))) = host.data := by
      refine takeWhile_append_stop ?_ (by simp)
      intro c hc
      have h1 := urlHostChar_ne (d := '/') (hchars c hc)
        (Or.inr (Or.inl (by decide)))
      have h2 := urlHostChar_ne (d := '?') (hchars c hc)
        (Or.inr (Or.inr (Or.inr (by decide))))
      have h3 := urlHostChar_ne (d := '#') (hchars c hc) (Or.inl (by decide))
      simp [h1, h2, h3]
    rw [htw2]
    refine Bool.and_eq_true_iff.mpr ⟨by simpa using hhd, ?_⟩
    rw [List.all_eq_true]
    intro c hc
    have hb := urlHostChar_spec (hchars c hc)
    refine Bool.and_eq_true_iff.mpr ⟨?_, ?_⟩
    · have hforb : forbiddenHostChar c = false := by
        unfold forbiddenHostChar
        simp only [List.mem_cons, List.not_mem_nil, or_false,
          decide_eq_false_iff_not]
        rcases hb with h | h | ⟨h1, h2⟩ | ⟨h1, h2⟩ | ⟨h1, h2⟩ <;> omega
      rw [hforb]
      rfl
    · refine decide_eq_true ?_
      rcases hb with h | h | ⟨h1, h2⟩ | ⟨h1, h2⟩ | ⟨h1, h2⟩ <;> omega
  unfold normalizeGitUrl
  rw [if_neg (by rw [hne]; exact Bool.false_ne_true)]
  rw [htrim]
  simp only [hplus, Bool.false_eq_true, if_false]
  simp only [hgitcolon, Bool.false_eq_true, if_false]
  simp only [hgat, if_true]
  rw [hdropped, hssh]
  simp only
  rw [hnoend]
  simp only [Bool.false_eq_true, if_false]
  rw [hurl]
  simp only [if_true]
  refine congrArg some (String.ext ?_)
  simp [String.data_append]

/-- C7 witness: the canonical GitHub instance of the amended theorem. -/
theorem normalizeGitUrl_ssh_witness :
    normalizeGitUrl "git@github.com:owner/repo.git"
      = some "https://github.com/owner/repo" := by
  have h := normalizeGitUrl_ssh "github.com" "owner" "repo"
    (by decide) (by decide) (by decide) (by decide) (by decide)
  simpa using h

/-! ### Key-set fields are strictly sorted (C6) -/

mutual
/-- Well-formedness of a parsed JSON value: every object's keys are
pairwise distinct, as `JSON.parse` guarantees (a duplicated source key
keeps only its last binding). -/
def jsWF : JsValue → Bool
  | .vobj fs => decide ((fs.map Prod.fst).Nodup) && jsWFFields fs
  | .varr its => jsWFItems its
  | _ => true

def jsWFItems : List JsValue → Bool
  | [] => true
  | v :: rest => jsWF v && jsWFItems rest

def jsWFFields : List (String × JsValue) → Bool
  | [] => true
  | (_, v) :: rest => jsWF v && jsWFFields rest
end

theorem jsWFFields_mem {fs : List (String × JsValue)}
    (h : jsWFFields fs = true) {p : String × JsValue} (hp : p ∈ fs) :
    jsWF p.2 = true := by
  induction fs with
  | nil => simp at hp
  | cons a rest ih =>
    obtain ⟨k, v⟩ := a
    rw [jsWFFields, Bool.and_eq_true_iff] at h
    rcases List.mem_cons.mp hp with h1 | h1
    · rw [h1]; exact h.1
    · exact ih h.2 h1

theorem jsWFItems_mem {its : List JsValue} (h : jsWFItems its = true)
    {v : JsValue} (hv : v ∈ its) : jsWF v = true := by
  induction its with
  | nil => simp at hv
  | cons a rest ih =>
    rw [jsWFItems, Bool.and_eq_true_iff] at h
    rcases List.mem_cons.mp hv with h1 | h1
    · rw [h1]; exact h.1
    · exact ih h.2 h1

theorem jsWF_entriesOf {w : JsValue} (hwf : jsWF w = true)
    {p : String × JsValue} (hp : p ∈ entriesOf w) : jsWF p.2 = true := by
  cases w with
  | vobj fs =>
    rw [jsWF, Bool.and_eq_true_iff] at hwf
    exact jsWFFields_mem hwf.2 hp
  | varr its =>
    rw [jsWF] at hwf
    simp only [entriesOf, List.mem_map] at hp
    rcases hp with ⟨q, hq, hqp⟩
    have hv : q.2 ∈ its := by
      have := List.of_mem_zip (by simpa [List.enum_eq_zip_range] using hq)
      exact this.2
    have := jsWFItems_mem hwf hv
    rw [← hqp]
    exact this
  | vstr a => simp [entriesOf] at hp
  | vbool a => simp [entriesOf] at hp
  | vnum a => simp [entriesOf] at hp
  | vnull => simp [entriesOf] at hp

theorem jsWF_jsGet {v : JsValue} {k : String} {u : JsValue}
    (hwf : jsWF v = true) (h : jsGet v k = some u) : jsWF u = true := by
  cases v with
  | vobj fs =>
    rw [jsWF, Bool.and_eq_true_iff] at hwf
    exact jsWFFields_mem hwf.2 (mem_of_lookup h)
  | varr its =>
    rw [jsWF] at hwf
    simp only [jsGet] at h
    rcases hk : k.toNat? with _ | i <;> simp only [hk] at h
    · exact absurd h (by simp)
    · by_cases hik : natKey i = k
      · rw [if_pos hik] at h
        exact jsWFItems_mem hwf (List.getElem?_mem h)
      · rw [if_neg hik] at h
        exact absurd h (by simp)
  | vstr a => simp [jsGet] at h
  | vbool a => simp [jsGet] at h
  | vnum a => simp [jsGet] at h
  | vnull => simp [jsGet] at h

theorem charOfDigit_toNat {d : Nat} (hd : d < 10) :
    (Char.ofNat (48 + d)).toNat = 48 + d := by
  interval_cases d <;> decide

theorem natKey_injective : Function.Injective natKey := by
  intro m n h
  unfold natKey at h
  have hdig : ∀ x : Nat, x ≠ 0 →
      (⟨((Nat.digits 10 x).map fun d => Char.ofNat (48 + d)).reverse⟩ :
        String) ≠ "0" := by
    intro x hx hcon
    have hdata := congrArg String.data hcon
    simp only at hdata
    have : ((Nat.digits 10 x).map fun d => Char.ofNat (48 + d)).reverse
        = ['0'] := hdata
    have hlen : (Nat.digits 10 x).length = 1 := by
      have := congrArg List.length this
      simpa using this
    rcases hd : Nat.digits 10 x with _ | ⟨d, rest⟩
    · rw [hd] at hlen; simp at hlen
    · rw [hd] at hlen
      simp at hlen
      subst hlen
      rw [hd] at this
      simp at this
      have hd10 : d < 10 :=
        Nat.digits_lt_base (by omega) (by rw [hd]; exact List.mem_cons_self _ _)
      have htn := congrArg Char.toNat this
      rw [charOfDigit_toNat hd10] at htn
      have : d = 0 := by
        have h0 : ('0' : Char).toNat = 48 := by decide
        omega
      subst this
      have := Nat.ofDigits_digits 10 x
      rw [hd] at this
      simp [Nat.ofDigits] at this
      exact hx this.symm
  by_cases hm : m = 0 <;> by_cases hn : n = 0
  · rw [hm, hn]
  · rw [if_pos hm, if_neg hn] at h
    exact absurd h.symm (hdig n hn)
  · rw [if_neg hm, if_pos hn] at h
    exact absurd h (hdig m hm)
  · rw [if_neg hm, if_neg hn] at h
    have hdata := congrArg String.data h
    simp only at hdata
    have hrev := congrArg List.reverse hdata
    simp only [List.reverse_reverse] at hrev
    have hmap : Nat.digits 10 m = Nat.digits 10 n := by
      have hall1 : ∀ d ∈ Nat.digits 10 m, d < 10 := fun d hd =>
        Nat.digits_lt_base (by omega) hd
      have hall2 : ∀ d ∈ Nat.digits 10 n, d < 10 := fun d hd =>
        Nat.digits_lt_base (by omega) hd
      clear h hdata
      revert hrev
      generalize Nat.digits 10 m = l1 at hall1 ⊢
      generalize Nat.digits 10 n = l2 at hall2 ⊢
      induction l1 generalizing l2 with
      | nil => cases l2 <;> simp
      | cons a r1 ih =>
        cases l2 with
        | nil => simp
        | cons b r2 =>
          intro hmap
          simp only [List.map_cons, List.cons.injEq] at hmap
          have ha : a < 10 := hall1 a (List.mem_cons_self _ _)
          have hb : b < 10 := hall2 b (List.mem_cons_self _ _)
          have hab : a = b := by
            have := congrArg Char.toNat hmap.1
            rw [charOfDigit_toNat ha, charOfDigit_toNat hb] at this
            omega
          rw [hab, ih (fun d hd => hall1 d (List.mem_cons_of_mem _ hd)) r2
            (fun d hd => hall2 d (List.mem_cons_of_mem _ hd)) hmap.2]
    have h1 := Nat.ofDigits_digits 10 m
    have h2 := Nat.ofDigits_digits 10 n
    rw [hmap] at h1
    exact h1.symm.trans h2

theorem entriesOf_keys_nodup {w : JsValue} (hwf : jsWF w = true) :
    ((entriesOf w).map Prod.fst).Nodup := by
  cases w with
  | vobj fs =>
    rw [jsWF, Bool.and_eq_true_iff] at hwf
    simpa using hwf.1
  | varr its =>
    show ((its.enum.map fun p => (natKey p.1, p.2)).map Prod.fst).Nodup
    rw [List.map_map]
    have : (Prod.fst ∘ fun p : Nat × JsValue => (natKey p.1, p.2))
        = natKey ∘ Prod.fst := rfl
    rw [this, ← List.map_map, List.enum_map_fst]
    exact (List.nodup_range _).map natKey_injective
  | vstr a => simp [entriesOf]
  | vbool a => simp [entriesOf]
  | vnum a => simp [entriesOf]
  | vnull => simp [entriesOf]

/-- The invariant of a key-set field: absent, or strictly sorted (hence
duplicate-free). -/
def okField : Option (List String) → Prop
  | none => True
  | some l => l.Pairwise (· < ·)

/-- The three key-set fields of a record are absent or strictly sorted. -/
def recordFieldsOk (r : PackageInfo) : Prop :=
  okField r.dependencies ∧ okField r.requires ∧ okField r.peerDependencies

theorem dedupFirstAux_nodup (l : List String) : ∀ (seen : List String),
    (dedupFirstAux seen l).Nodup ∧ ∀ x ∈ dedupFirstAux seen l, x ∉ seen := by
  induction l with
  | nil => intro seen; simp [dedupFirstAux]
  | cons x rest ih =>
    intro seen
    unfold dedupFirstAux
    split
    · exact ih seen
    · rename_i hx
      obtain ⟨hnd, hmem⟩ := ih (x :: seen)
      refine ⟨List.nodup_cons.mpr ⟨?_, hnd⟩, ?_⟩
      · intro hin
        exact hmem x hin (List.mem_cons_self _ _)
      · intro y hy
        rcases List.mem_cons.mp hy with h1 | h1
        · rw [h1]; exact hx
        · intro hseen
          exact hmem y h1 (List.mem_cons_of_mem _ hseen)

theorem dedupFirst_nodup (l : List String) : (dedupFirst l).Nodup :=
  (dedupFirstAux_nodup l []).1

theorem jsSortStrings_pairwise_lt {l : List String} (hn : l.Nodup) :
    (jsSortStrings l).Pairwise (· < ·) := by
  have hs : (jsSortStrings l).Pairwise strLe :=
    List.sorted_insertionSort strLe l
  have hperm : List.Perm (jsSortStrings l) l := List.perm_insertionSort strLe l
  have hn2 : (jsSortStrings l).Nodup := hperm.nodup_iff.mpr hn
  exact (hs.and hn2).imp fun h =>
    lt_of_le_of_ne ((strLe_iff _ _).mp h.1) h.2

theorem okField_keysOf {w : JsValue} (hwf : jsWF w = true) :
    okField (keysOf (some w)) := by
  unfold keysOf
  dsimp only
  split
  · split
    · trivial
    · exact jsSortStrings_pairwise_lt (entriesOf_keys_nodup hwf)
  · trivial

theorem okField_keysOf_jsGet {v : JsValue} {k : String}
    (hwf : jsWF v = true) : okField (keysOf (jsGet v k)) := by
  cases h : jsGet v k with
  | none => trivial
  | some u => exact okField_keysOf (jsWF_jsGet hwf h)

theorem mergeStringArrays_ok {a b : Option (List String)} (ha : okField a)
    (hb : okField b) : okField (mergeStringArrays a b) := by
  unfold mergeStringArrays
  cases b with
  | none => exact ha
  | some inc =>
    dsimp only
    split
    · exact ha
    · cases a with
      | none => exact hb
      | some ex =>
        dsimp only
        split
        · exact hb
        · exact jsSortStrings_pairwise_lt (dedupFirst_nodup _)

theorem mergePackageFields_fieldsOk {t s : PackageInfo}
    (ht : recordFieldsOk t) (hs : recordFieldsOk s) :
    recordFieldsOk (mergePackageFields t s) :=
  ⟨mergeStringArrays_ok ht.1 hs.1, mergeStringArrays_ok ht.2.1 hs.2.1,
    mergeStringArrays_ok ht.2.2 hs.2.2⟩

theorem mem_mergeIntoFirst {m : List PackageInfo} {tid : String}
    {c : PackageInfo} {r : PackageInfo} (h : r ∈ mergeIntoFirst m tid c) :
    r ∈ m ∨ ∃ x ∈ m, r = mergePackageFields x c := by
  induction m with
  | nil => simp [mergeIntoFirst] at h
  | cons a rest ih =>
    unfold mergeIntoFirst at h
    split at h
    · rcases List.mem_cons.mp h with h1 | h1
      · exact Or.inr ⟨a, List.mem_cons_self _ _, h1⟩
      · exact Or.inl (List.mem_cons_of_mem _ h1)
    · rcases List.mem_cons.mp h with h1 | h1
      · exact Or.inl (h1 ▸ List.mem_cons_self _ _)
      · rcases ih h1 with h2 | ⟨x, hx, hrx⟩
        · exact Or.inl (List.mem_cons_of_mem _ h2)
        · exact Or.inr ⟨x, List.mem_cons_of_mem _ hx, hrx⟩

/-- Every record of the extraction map has well-formed key-set fields. -/
def stateOk (st : ExtractState) : Prop :=
  ∀ r ∈ st.packagesMap, recordFieldsOk r

theorem mergePackageInfo_stateOk {st : ExtractState} {c : PackageInfo}
    (hst : stateOk st) (hc : recordFieldsOk c) :
    stateOk (mergePackageInfo st c) := by
  unfold mergePackageInfo
  dsimp only
  split
  · intro r hr
    rcases mem_mergeIntoFirst hr with h | ⟨x, hx, hrx⟩
    · exact hst r h
    · rw [hrx]
      exact mergePackageFields_fieldsOk (hst x hx) hc
  · intro r hr
    rcases List.mem_append.mp hr with h | h
    · exact hst r h
    · have h1 : r = { c with
          id := (findMatchingId st.packagesMap c).getD c.id } := by
        simpa using h
      rw [h1]
      exact hc

theorem createCandidate_fieldsOk {source : String}
    {nameInput : Option String} {info : JsValue} {path : Option String}
    {counter : Nat} (hwf : jsWF info = true) :
    ∀ cand, (createCandidate source nameInput info path counter).1 = some cand
      → recordFieldsOk cand := by
  intro cand h
  unfold createCandidate at h
  dsimp only at h
  split at h
  · simp at h
  · simp only [Option.some.injEq] at h
    rw [← h]
    exact ⟨okField_keysOf_jsGet hwf, okField_keysOf_jsGet hwf,
      okField_keysOf_jsGet hwf⟩

theorem candApply_stateOk (st : ExtractState) (p : Option PackageInfo × Nat)
    (hst : stateOk st)
    (hp : ∀ cand, p.1 = some cand → recordFieldsOk cand) :
    stateOk (match p.1 with
      | some cand => mergePackageInfo { st with idCounter := p.2 } cand
      | none => { st with idCounter := p.2 }) := by
  cases h : p.1 with
  | some cand =>
    exact mergePackageInfo_stateOk (fun r hr => hst r hr) (hp cand h)
  | none => exact fun r hr => hst r hr

theorem depStep_stateOk (depName : String) (depInfo : JsValue)
    (st : ExtractState) (hwf : jsWF depInfo = true) (hst : stateOk st) :
    stateOk (depStep depName depInfo st) := by
  unfold depStep
  split
  · exact candApply_stateOk st _ hst
      (fun cand h => createCandidate_fieldsOk hwf cand h)
  · refine candApply_stateOk st _ hst
      (fun cand h => createCandidate_fieldsOk ?_ cand h)
    split
    · simp [jsWF, jsWFFields]
    · simp [jsWF, jsWFFields]

theorem wf_depNestedEntries {depInfo : JsValue} (hwf : jsWF depInfo = true) :
    ∀ p ∈ depNestedEntries depInfo, jsWF p.2 = true := by
  intro p hp
  unfold depNestedEntries at hp
  split at hp
  next nested heq =>
    split at hp
    · exact jsWF_entriesOf (jsWF_jsGet hwf heq) hp
    · simp at hp
  next => simp at hp

theorem collectDepEntries_stateOk :
    ∀ (entries : List (String × JsValue)) (st : ExtractState),
    (∀ p ∈ entries, jsWF p.2 = true) → stateOk st →
    stateOk (collectDepEntries entries st) := by
  intro entries st
  induction entries, st using collectDepEntries.induct with
  | case1 st =>
    intro _ h
    rw [collectDepEntries]
    exact h
  | case2 depName depInfo rest st st1 st2 ih3 ih2 ih1 =>
    intro hwf hst
    rw [collectDepEntries]
    refine ih1 (fun p hp => hwf p (List.mem_cons_of_mem _ hp)) ?_
    have hwfd : jsWF depInfo = true := hwf (depName, depInfo)
      (List.mem_cons_self _ _)
    have hst1 : stateOk (depStep depName depInfo st) :=
      depStep_stateOk depName depInfo st hwfd hst
    by_cases hrec : isRecord depInfo = true
    · show stateOk (if _h : isRecord depInfo = true then
          collectDepEntries (depNestedEntries depInfo)
            (depStep depName depInfo st)
        else depStep depName depInfo st)
      rw [dif_pos hrec]
      exact ih2 (wf_depNestedEntries hwfd) hst1
    · show stateOk (if _h : isRecord depInfo = true then
          collectDepEntries (depNestedEntries depInfo)
            (depStep depName depInfo st)
        else depStep depName depInfo st)
      rw [dif_neg hrec]
      exact hst1

theorem collectDependencies_stateOk (deps : JsValue) (st : ExtractState)
    (hwf : jsWF deps = true) (hst : stateOk st) :
    stateOk (collectDependencies deps st) := by
  unfold collectDependencies
  split
  · exact collectDepEntries_stateOk _ _ (fun p hp => jsWF_entriesOf hwf hp) hst
  · exact hst

theorem ite_stateOk {c : Prop} [Decidable c] {a b : ExtractState}
    (ha : c → stateOk a) (hb : ¬c → stateOk b) :
    stateOk (if c then a else b) := by
  split
  · exact ha (by assumption)
  · exact hb (by assumption)

theorem collectPkgEntries_stateOk :
    ∀ (entries : List (String × JsValue)) (st : ExtractState),
    (∀ p ∈ entries, jsWF p.2 = true) → stateOk st →
    stateOk (collectPkgEntries entries st) := by
  intro entries
  induction entries with
  | nil =>
    intro st _ h
    rw [collectPkgEntries]
    exact h
  | cons a rest ih =>
    intro st hwf hst
    obtain ⟨packagePath, info⟩ := a
    rw [collectPkgEntries]
    refine ih _ (fun p hp => hwf p (List.mem_cons_of_mem _ hp)) ?_
    have hwfi : jsWF info = true := hwf (packagePath, info)
      (List.mem_cons_self _ _)
    have hgen : ∀ (q : Option PackageInfo × Nat),
        (∀ cand, q.1 = some cand → recordFieldsOk cand) →
        ∀ (d : Option JsValue), (∀ v, d = some v → jsWF v = true) →
        stateOk (match d with
          | some nested =>
            if jsTruthy nested then
              collectDependencies nested
                (match q.1 with
                  | some cand =>
                    mergePackageInfo { st with idCounter := q.2 } cand
                  | none => { st with idCounter := q.2 })
            else
              (match q.1 with
                | some cand =>
                  mergePackageInfo { st with idCounter := q.2 } cand
                | none => { st with idCounter := q.2 })
          | none =>
            (match q.1 with
              | some cand =>
                mergePackageInfo { st with idCounter := q.2 } cand
              | none => { st with idCounter := q.2 })) := by
      intro q hq d hd
      have hq2 : stateOk (match q.1 with
          | some cand => mergePackageInfo { st with idCounter := q.2 } cand
          | none => { st with idCounter := q.2 }) :=
        candApply_stateOk st q hst hq
      cases d with
      | none => exact hq2
      | some nested =>
        exact ite_stateOk
          (fun _ => collectDependencies_stateOk _ _ (hd nested rfl) hq2)
          (fun _ => hq2)
    by_cases hrec : isRecord info = true
    · rw [if_pos hrec]
      exact hgen (createCandidate "packages"
          ((deriveNameFromPath packagePath).or (asString (jsGet info "name")))
          info (if packagePath = "" then none else some packagePath)
          st.idCounter)
        (fun cand h => createCandidate_fieldsOk hwfi cand h)
        (jsGet info "dependencies") (fun v hv => jsWF_jsGet hwfi hv)
    · rw [if_neg hrec]
      exact hst

theorem collectPackages_stateOk (packages : JsValue) (st : ExtractState)
    (hwf : jsWF packages = true) (hst : stateOk st) :
    stateOk (collectPackages packages st) := by
  unfold collectPackages
  split
  · exact collectPkgEntries_stateOk _ _ (fun p hp => jsWF_entriesOf hwf hp) hst
  · exact hst

/-- One optional-section stage of `extractPackages`: run the traversal `f`
on the section's value when it is present and truthy. -/
def stage (f : JsValue → ExtractState → ExtractState) (d : Option JsValue)
    (st : ExtractState) : ExtractState :=
  match d with
  | some ps => if jsTruthy ps then f ps st else st
  | none => st

theorem stage_stateOk (st : ExtractState) (hst : stateOk st)
    (d : Option JsValue) (hd : ∀ v, d = some v → jsWF v = true)
    (f : JsValue → ExtractState → ExtractState)
    (hf : ∀ v s2, jsWF v = true → stateOk s2 → stateOk (f v s2)) :
    stateOk (stage f d st) := by
  unfold stage
  cases d with
  | none => exact hst
  | some ps =>
    exact ite_stateOk (fun _ => hf ps st (hd ps rfl) hst) (fun _ => hst)

theorem dedupPass_fieldsOk (E : List String) (pkgs : List PackageInfo)
    (hp : ∀ r ∈ pkgs, recordFieldsOk r) :
    ∀ q ∈ dedupPass E pkgs, recordFieldsOk q.2 := by
  suffices hgen : ∀ (acc : List (String × PackageInfo)),
      (∀ q ∈ acc, recordFieldsOk q.2) →
      (∀ r ∈ pkgs, recordFieldsOk r) →
      ∀ q ∈ pkgs.foldl (dedupInsert E) acc, recordFieldsOk q.2 by
    exact hgen [] (by simp) hp
  clear hp
  induction pkgs with
  | nil =>
    intro acc hacc _ q hq
    exact hacc q hq
  | cons p rest ih =>
    intro acc hacc hmem q hq
    refine ih (dedupInsert E acc p) ?_
      (fun r hr => hmem r (List.mem_cons_of_mem _ hr)) q hq
    intro q1 hq1
    have hpok : recordFieldsOk p := hmem p (List.mem_cons_self _ _)
    rcases mem_dedupInsert hq1 with h1 | ⟨x, hx, h1⟩ | h1
    · exact hacc q1 h1
    · rw [h1]
      exact mergePackageFields_fieldsOk (hacc x hx) hpok
    · rw [h1]
      exact hpok

/-- The C6 witness document: a flat table whose only non-root entry has a
nested `dependencies` object whose keys are deliberately out of order. -/
def sortedFieldsDoc : JsValue :=
  .vobj [("packages", .vobj
    [("node_modules/y", .vobj
      [("version", .vstr "1"),
       ("dependencies", .vobj [("b", .vstr "1"), ("a", .vstr "2")])])])]

/-- C6 (amended): on a well-formed document — every object's keys pairwise
distinct, as `JSON.parse` guarantees — each record returned by
`extractPackages` has its `dependencies`, `requires` and `peerDependencies`
fields, when present, strictly sorted lexicographically and hence free of
duplicate names.  (`bundledDependencies` is excluded: it passes literal
array contents through, see the counterexample.) -/
theorem extractPackages_keysets_sorted (lockFile : JsValue)
    (hwf : jsWF lockFile = true) :
    ∀ r ∈ extractPackages lockFile,
      (∀ l, r.dependencies = some l → l.Pairwise (· < ·)) ∧
      (∀ l, r.requires = some l → l.Pairwise (· < ·)) ∧
      (∀ l, r.peerDependencies = some l → l.Pairwise (· < ·)) := by
  intro r hr
  have hok : recordFieldsOk r := by
    unfold extractPackages at hr
    split at hr
    · rcases mem_finishPipeline hr with ⟨q, hq, hrq⟩
      rw [hrq]
      refine dedupPass_fieldsOk _ _ ?_ q hq
      intro x hx
      have hx2 := (List.mem_filter.mp hx).1
      have hst0 : stateOk ({} : ExtractState) := by
        intro r2 hr2
        exact absurd hr2 (List.not_mem_nil r2)
      have hst1 := stage_stateOk _ hst0 (jsGet lockFile "packages")
        (fun v hv => jsWF_jsGet hwf hv) collectPackages
        (fun v s2 h1 h2 => collectPackages_stateOk v s2 h1 h2)
      have hst2 := stage_stateOk _ hst1 (jsGet lockFile "dependencies")
        (fun v hv => jsWF_jsGet hwf hv) collectDependencies
        (fun v s2 h1 h2 => collectDependencies_stateOk v s2 h1 h2)
      exact hst2 x hx2
    · simp at hr
  obtain ⟨h1, h2, h3⟩ := hok
  refine ⟨?_, ?_, ?_⟩
  · intro l hl
    rw [hl] at h1
    exact h1
  · intro l hl
    rw [hl] at h2
    exact h2
  · intro l hl
    rw [hl] at h3
    exact h3

/-- C6 witness: the theorem applies non-vacuously — the scenario document
is well-formed, its single output record's `dependencies` field evaluates
to `some ["a", "b"]` (the source object's keys appeared as `b`, `a`), and
the theorem delivers the strict sortedness of that list. -/
theorem extractPackages_keysets_sorted_witness :
    jsWF sortedFieldsDoc = true ∧
    (extractPackages sortedFieldsDoc).map (fun r => r.dependencies)
      = [some ["a", "b"]] ∧
    List.Pairwise (· < ·) ["a", "b"] := by
  have hwf : jsWF sortedFieldsDoc = true := by
    simp +decide [sortedFieldsDoc, jsWF, jsWFFields, jsWFItems]
  have heval : (extractPackages sortedFieldsDoc).map (fun r => r.dependencies)
      = [some ["a", "b"]] := by
    simp +decide [extractPackages, sortedFieldsDoc, isRecord, explicitNamesOf,
      jsGet, jsTruthy, collectPackages, collectPkgEntries, collectDepEntries,
      collectDependencies, depNestedEntries, depStep, entriesOf,
      deriveNameFromPath, createCandidate, createId, jsTrim, jsWhitespace,
      asString, asBoolean, keysOf, arrayOfStrings, mergePackageInfo,
      findMatchingId, mergeIntoFirst, mergePackageFields, strTruthy,
      finishPipeline, dedupPass, dedupInsert, dedupKey, mergeIntoFirstKeyed,
      List.insertionSort, List.orderedInsert, jsSortStrings, dedupFirst,
      dedupFirstAux, List.lookup, spreadMerge, mergeStringArrays,
      localeCompare, strLe, pkgLe, pkgCmp, splitOnStr, splitOnCharsAux,
      joinSep, strEndsWith, dropRightChars, strStartsWith, dropChars]
  refine ⟨hwf, heval, ?_⟩
  have hmain := extractPackages_keysets_sorted sortedFieldsDoc hwf
  cases hl : extractPackages sortedFieldsDoc with
  | nil =>
    rw [hl] at heval
    simp at heval
  | cons r rest =>
    rw [hl] at heval
    simp only [List.map_cons] at heval
    have hdep : r.dependencies = some ["a", "b"] :=
      (List.cons.injEq _ _ _ _ ▸ heval).1
    refine (hmain r ?_).1 ["a", "b"] hdep
    rw [hl]
    exact List.mem_cons_self _ _

theorem mem_dedupFirstAux_of {x : String} (l : List String) :
    ∀ seen, x ∈ l → x ∉ seen → x ∈ dedupFirstAux seen l := by
  induction l with
  | nil => intro seen h _; simp at h
  | cons y rest ih =>
    intro seen hx hns
    unfold dedupFirstAux
    split
    · rename_i hy
      rcases List.mem_cons.mp hx with h1 | h1
      · exact absurd (h1 ▸ hy) hns
      · exact ih seen h1 hns
    · by_cases hxy : x = y
      · rw [hxy]
        exact List.mem_cons_self _ _
      · rcases List.mem_cons.mp hx with h1 | h1
        · exact absurd h1 hxy
        · refine List.mem_cons_of_mem _ (ih (y :: seen) h1 ?_)
          intro hc
          rcases List.mem_cons.mp hc with h2 | h2
          · exact hxy h2
          · exact hns h2

theorem mem_dedupFirst_of_mem {x : String} {l : List String} (h : x ∈ l) :
    x ∈ dedupFirst l :=
  mem_dedupFirstAux_of l [] h (List.not_mem_nil x)

theorem mergePackageFields_path_of_none (t s : PackageInfo)
    (hs : s.path = none) : (mergePackageFields t s).path = t.path := by
  have h : (mergePackageFields t s).path =
      if !strTruthy t.path && strTruthy s.path then s.path else t.path := rfl
  rw [h, hs]
  simp [strTruthy]

theorem mergePackageFields_sources_mem {x : String} (t s : PackageInfo)
    (h : x ∈ t.sources) : x ∈ (mergePackageFields t s).sources := by
  have he : (mergePackageFields t s).sources =
      dedupFirst (t.sources ++ s.sources) := rfl
  rw [he]
  exact mem_dedupFirst_of_mem (List.mem_append_left _ h)

/-- The invariant of the single-root scenario: the map's first record is
the root project (right name, `packages` origin), and every record of the
map is pathless. -/
def rootInv (nm : String) (st : ExtractState) : Prop :=
  (∃ r rest, st.packagesMap = r :: rest ∧ r.name = nm ∧
    "packages" ∈ r.sources) ∧ ∀ r ∈ st.packagesMap, r.path = none

theorem mergeIntoFirst_head (r : PackageInfo) (rest : List PackageInfo)
    (tid : String) (c : PackageInfo) :
    mergeIntoFirst (r :: rest) tid c = mergePackageFields r c :: rest ∨
      mergeIntoFirst (r :: rest) tid c = r :: mergeIntoFirst rest tid c := by
  by_cases hid : r.id = tid
  · left
    show (if r.id = tid then mergePackageFields r c :: rest
      else r :: mergeIntoFirst rest tid c) = _
    rw [if_pos hid]
  · right
    show (if r.id = tid then mergePackageFields r c :: rest
      else r :: mergeIntoFirst rest tid c) = _
    rw [if_neg hid]

theorem mergePackageInfo_rootInv {nm : String} {st : ExtractState}
    {c : PackageInfo} (hc : c.path = none) (h : rootInv nm st) :
    rootInv nm (mergePackageInfo st c) := by
  obtain ⟨⟨r, rest, hm, hn, hs⟩, hpaths⟩ := h
  unfold mergePackageInfo
  dsimp only
  split
  · constructor
    · rw [hm]
      rcases mergeIntoFirst_head r rest _ c with he | he
      · refine ⟨_, _, he, ?_, mergePackageFields_sources_mem _ _ hs⟩
        rw [mergePackageFields_name]
        exact hn
      · exact ⟨_, _, he, hn, hs⟩
    · intro x hx
      rcases mem_mergeIntoFirst hx with h1 | ⟨y, hy, hxy⟩
      · exact hpaths x h1
      · rw [hxy, mergePackageFields_path_of_none _ _ hc]
        exact hpaths y hy
  · constructor
    · refine ⟨r, rest ++
        [{ c with id := (findMatchingId st.packagesMap c).getD c.id }],
        ?_, hn, hs⟩
      rw [hm]
      rfl
    · intro x hx
      rcases List.mem_append.mp hx with h1 | h1
      · exact hpaths x h1
      · simp only [List.mem_singleton] at h1
        rw [h1]
        exact hc

theorem createCandidate_path {source : String} {nameInput : Option String}
    {info : JsValue} {path : Option String} {counter : Nat} :
    ∀ cand, (createCandidate source nameInput info path counter).1 = some cand
      → cand.path = path := by
  intro cand h
  unfold createCandidate at h
  dsimp only at h
  split at h
  · simp at h
  · simp only [Option.some.injEq] at h
    rw [← h]

theorem candApply_rootInv (st : ExtractState) (p : Option PackageInfo × Nat)
    {nm : String} (h : rootInv nm st)
    (hp : ∀ cand, p.1 = some cand → cand.path = none) :
    rootInv nm (match p.1 with
      | some cand => mergePackageInfo { st with idCounter := p.2 } cand
      | none => { st with idCounter := p.2 }) := by
  cases hq : p.1 with
  | some cand => exact mergePackageInfo_rootInv (hp cand hq) h
  | none => exact h

theorem depStep_rootInv {nm : String} (depName : String) (depInfo : JsValue)
    (st : ExtractState) (h : rootInv nm st) :
    rootInv nm (depStep depName depInfo st) := by
  unfold depStep
  split
  · exact candApply_rootInv st _ h (fun cand hc => createCandidate_path cand hc)
  · exact candApply_rootInv st _ h (fun cand hc => createCandidate_path cand hc)

theorem collectDepEntries_rootInv (nm : String) :
    ∀ (entries : List (String × JsValue)) (st : ExtractState),
    rootInv nm st → rootInv nm (collectDepEntries entries st) := by
  intro entries st
  induction entries, st using collectDepEntries.induct with
  | case1 st =>
    intro h
    rw [collectDepEntries]
    exact h
  | case2 depName depInfo rest st st1 st2 ih3 ih2 ih1 =>
    intro h
    rw [collectDepEntries]
    refine ih1 ?_
    have h1 : rootInv nm (depStep depName depInfo st) :=
      depStep_rootInv depName depInfo st h
    by_cases hrec : isRecord depInfo = true
    · show rootInv nm (if _h : isRecord depInfo = true then
          collectDepEntries (depNestedEntries depInfo)
            (depStep depName depInfo st)
        else depStep depName depInfo st)
      rw [dif_pos hrec]
      exact ih2 h1
    · show rootInv nm (if _h : isRecord depInfo = true then
          collectDepEntries (depNestedEntries depInfo)
            (depStep depName depInfo st)
        else depStep depName depInfo st)
      rw [dif_neg hrec]
      exact h1

theorem collectDependencies_rootInv {nm : String} (deps : JsValue)
    (st : ExtractState) (h : rootInv nm st) :
    rootInv nm (collectDependencies deps st) := by
  unfold collectDependencies
  split
  · exact collectDepEntries_rootInv nm _ _ h
  · exact h

theorem ite_rootInv {c : Prop} [Decidable c] {a b : ExtractState}
    {nm : String} (ha : c → rootInv nm a) (hb : ¬c → rootInv nm b) :
    rootInv nm (if c then a else b) := by
  split
  · exact ha (by assumption)
  · exact hb (by assumption)

theorem depsMatch_rootInv {nm : String} (st : ExtractState)
    (h : rootInv nm st) (d : Option JsValue) :
    rootInv nm (match d with
      | some nested =>
        if jsTruthy nested then collectDependencies nested st else st
      | none => st) := by
  cases d with
  | none => exact h
  | some nested =>
    exact ite_rootInv (fun _ => collectDependencies_rootInv nested st h)
      (fun _ => h)

theorem createCandidate_some (source : String) (nameInput : Option String)
    (info : JsValue) (path : Option String) (counter : Nat)
    (h : jsTrim ((nameInput.or (asString (jsGet info "name"))).getD "") ≠ "") :
    ∃ cand, (createCandidate source nameInput info path counter).1 = some cand
      ∧ cand.name =
          jsTrim ((nameInput.or (asString (jsGet info "name"))).getD "")
      ∧ cand.path = path ∧ cand.sources = [source] := by
  unfold createCandidate
  dsimp only
  rw [if_neg h]
  exact ⟨_, rfl, rfl, rfl, rfl⟩

theorem mergePackageInfo_nil (cand : PackageInfo) (k : Nat) :
    ∃ c2, (mergePackageInfo { packagesMap := [], idCounter := k }
        cand).packagesMap = [c2]
      ∧ c2.name = cand.name ∧ c2.path = cand.path
      ∧ c2.sources = cand.sources := by
  have hfind : findMatchingId ([] : List PackageInfo) cand = none := by
    unfold findMatchingId
    split <;> rfl
  unfold mergePackageInfo
  dsimp only
  rw [hfind]
  exact ⟨_, rfl, rfl, rfl, rfl⟩

theorem collectPkgEntries_single_root (root : JsValue) (nm : String)
    (hroot : isRecord root = true)
    (hname : asString (jsGet root "name") = some nm)
    (htrim : jsTrim nm ≠ "") :
    rootInv (jsTrim nm) (collectPkgEntries [("", root)] ({} : ExtractState))
    := by
  simp only [collectPkgEntries]
  rw [if_pos hroot, hname]
  have hc := createCandidate_some "packages" (some nm) root none 0 (by
    show jsTrim nm ≠ ""
    exact htrim)
  obtain ⟨cand, hc1, hcn, hcp, hcs⟩ := hc
  have hmatch : ∀ C : Option PackageInfo × Nat, C.1 = some cand →
      rootInv (jsTrim nm) (match C.1 with
        | some c3 => mergePackageInfo { packagesMap := [], idCounter := C.2 } c3
        | none => { packagesMap := [], idCounter := C.2 }) := by
    intro C hC
    rw [hC]
    obtain ⟨c2, hm, h1, h2, h3⟩ := mergePackageInfo_nil cand C.2
    refine ⟨⟨c2, [], hm, ?_, ?_⟩, ?_⟩
    · rw [h1, hcn]
      rfl
    · rw [h3, hcs]
      exact List.mem_singleton.mpr rfl
    · intro x hx
      have hx2 : x ∈ [c2] := by
        rw [← hm]
        exact hx
      rw [List.mem_singleton.mp hx2, h2, hcp]
  exact depsMatch_rootInv _
    (hmatch (createCandidate "packages" (some nm) root none 0) hc1)
    (jsGet root "dependencies")

theorem mergeIntoFirstKeyed_cons (e : String × PackageInfo)
    (acc : List (String × PackageInfo)) (key : String) (p : PackageInfo) :
    mergeIntoFirstKeyed (e :: acc) key p =
      if e.1 = key then (e.1, mergePackageFields e.2 p) :: acc
      else (e.1, e.2) :: mergeIntoFirstKeyed acc key p := rfl

theorem dedupInsert_headKept {nm : String} (E : List String)
    (acc : List (String × PackageInfo)) (e : String × PackageInfo)
    (acc2 : List (String × PackageInfo)) (p : PackageInfo)
    (hacc : acc = e :: acc2) (hn : e.2.name = nm)
    (hs : "packages" ∈ e.2.sources) (hpath : e.2.path = none)
    (hp : p.path = none) :
    ∃ e2 acc3, dedupInsert E acc p = e2 :: acc3 ∧ e2.2.name = nm ∧
      "packages" ∈ e2.2.sources ∧ e2.2.path = none := by
  subst hacc
  unfold dedupInsert
  dsimp only
  split
  · rw [mergeIntoFirstKeyed_cons]
    split
    · refine ⟨(e.1, mergePackageFields e.2 p), acc2, rfl, ?_, ?_, ?_⟩
      · rw [mergePackageFields_name]
        exact hn
      · exact mergePackageFields_sources_mem _ _ hs
      · rw [mergePackageFields_path_of_none _ _ hp]
        exact hpath
    · exact ⟨(e.1, e.2), _, rfl, hn, hs, hpath⟩
  · refine ⟨e, acc2 ++
      [(dedupKey p, { p with isExplicit := some (E.contains p.name) })],
      ?_, hn, hs, hpath⟩
    rfl

theorem dedupFold_headKept {nm : String} (E : List String) :
    ∀ (t : List PackageInfo) (acc : List (String × PackageInfo))
      (e : String × PackageInfo) (acc2 : List (String × PackageInfo)),
    acc = e :: acc2 → e.2.name = nm → "packages" ∈ e.2.sources →
    e.2.path = none → (∀ p ∈ t, p.path = none) →
    ∃ e2 acc3, t.foldl (dedupInsert E) acc = e2 :: acc3 ∧ e2.2.name = nm ∧
      "packages" ∈ e2.2.sources ∧ e2.2.path = none := by
  intro t
  induction t with
  | nil =>
    intro acc e acc2 hacc hn hs hp _
    subst hacc
    exact ⟨e, acc2, rfl, hn, hs, hp⟩
  | cons p rest ih =>
    intro acc e acc2 hacc hn hs hp hpaths
    obtain ⟨e2, acc3, h1, h2, h3, h4⟩ := dedupInsert_headKept E acc e acc2 p
      hacc hn hs hp (hpaths p (List.mem_cons_self _ _))
    rw [List.foldl_cons]
    exact ih (dedupInsert E acc p) e2 acc3 h1 h2 h3 h4
      (fun q hq => hpaths q (List.mem_cons_of_mem _ hq))

theorem finishPipeline_root {nm : String} (E : List String)
    (m : List PackageInfo)
    (hhead : ∃ r rest, m = r :: rest ∧ r.name = nm ∧ "packages" ∈ r.sources)
    (hpaths : ∀ r ∈ m, r.path = none) :
    ∃ r ∈ finishPipeline E m,
      r.name = nm ∧ r.path = none ∧ "packages" ∈ r.sources := by
  obtain ⟨h, t, hm, hn, hs⟩ := hhead
  subst hm
  have hpred : (fun pkg => pkg.sources.contains "packages") h = true :=
    List.elem_eq_true_of_mem hs
  unfold finishPipeline
  dsimp only
  rw [List.filter_cons_of_pos
    (p := fun pkg : PackageInfo => pkg.sources.contains "packages") hpred]
  have hinit : dedupInsert E [] h =
      [(dedupKey h, { h with isExplicit := some (E.contains h.name) })] := rfl
  obtain ⟨e2, acc3, hfold, h2, h3, h4⟩ := dedupFold_headKept E
    (t.filter fun pkg => pkg.sources.contains "packages")
    (dedupInsert E [] h)
    (dedupKey h, { h with isExplicit := some (E.contains h.name) }) []
    hinit hn hs (hpaths h (List.mem_cons_self _ _))
    (fun q hq => hpaths q (List.mem_cons_of_mem _ (List.mem_filter.mp hq).1))
  have hd : dedupPass E (h ::
      (t.filter fun pkg => pkg.sources.contains "packages")) = e2 :: acc3 := by
    unfold dedupPass
    rw [List.foldl_cons]
    exact hfold
  refine ⟨e2.2, ?_, h2, h4, h3⟩
  rw [hd]
  have hperm := List.perm_insertionSort pkgLe ((e2 :: acc3).map (·.2))
  refine hperm.mem_iff.mpr ?_
  simp

/-- The C10 scenario document: a lock file whose flat packages table
consists of the empty-string root entry alone. -/
def rootOnlyDoc : JsValue :=
  .vobj [("packages", .vobj [("", .vobj [("name", .vstr "demo")])])]

/-- C10 (amended): when the flat packages table consists of the
empty-string root entry alone, that entry's `name` is a string that is
non-empty after trimming, and the lock file has no separate top-level
`dependencies` section, `extractPackages` emits a record for the root
project itself: its name is the trimmed `name`, it has no `path`, and it
carries the `packages` origin tag.  (The root entry's own nested
`dependencies` object, if any, is traversed but cannot displace the root
record or fill its path.) -/
theorem extractPackages_root_record (lockFile root : JsValue) (nm : String)
    (hrec : isRecord lockFile = true)
    (hpk : jsGet lockFile "packages" = some (.vobj [("", root)]))
    (hroot : isRecord root = true)
    (hname : asString (jsGet root "name") = some nm)
    (htrim : jsTrim nm ≠ "")
    (hdeps : jsGet lockFile "dependencies" = none) :
    ∃ r ∈ extractPackages lockFile,
      r.name = jsTrim nm ∧ r.path = none ∧ "packages" ∈ r.sources := by
  have hstep : extractPackages lockFile =
      finishPipeline (explicitNamesOf lockFile)
        (stage collectDependencies (jsGet lockFile "dependencies")
          (stage collectPackages (jsGet lockFile "packages")
            ({} : ExtractState))).packagesMap := by
    unfold extractPackages
    rw [if_pos hrec]
    rfl
  rw [hstep, hdeps, hpk]
  have hstage_none : ∀ (f : JsValue → ExtractState → ExtractState)
      (s : ExtractState), stage f none s = s := fun f s => rfl
  rw [hstage_none]
  have hps : stage collectPackages (some (JsValue.vobj [("", root)]))
      ({} : ExtractState) = collectPkgEntries [("", root)]
        ({} : ExtractState) := by
    show (if jsTruthy (JsValue.vobj [("", root)]) = true then
        collectPackages (JsValue.vobj [("", root)]) ({} : ExtractState)
      else ({} : ExtractState)) = _
    rw [if_pos (by rfl : jsTruthy (JsValue.vobj [("", root)]) = true)]
    show (if isRecord (JsValue.vobj [("", root)]) = true then
        collectPkgEntries (entriesOf (JsValue.vobj [("", root)]))
          ({} : ExtractState)
      else ({} : ExtractState)) = _
    rw [if_pos (by rfl : isRecord (JsValue.vobj [("", root)]) = true)]
    rfl
  rw [hps]
  have hinv := collectPkgEntries_single_root root nm hroot hname htrim
  exact finishPipeline_root _ _ hinv.1 hinv.2

/-- C10 witness: on the concrete single-root document the theorem applies —
its hypotheses hold, and the output contains the root project record
(named `demo`, pathless, of `packages` origin). -/
theorem extractPackages_root_record_witness :
    jsTrim "demo" ≠ "" ∧
    ∃ r ∈ extractPackages rootOnlyDoc,
      r.name = jsTrim "demo" ∧ r.path = none ∧ "packages" ∈ r.sources := by
  refine ⟨by decide, ?_⟩
  exact extractPackages_root_record rootOnlyDoc
    (.vobj [("name", .vstr "demo")]) "demo" rfl rfl rfl rfl (by decide) rfl

theorem pkgLe_antisymm_key {a b : PackageInfo} (h1 : pkgLe a b)
    (h2 : pkgLe b a) :
    a.name = b.name ∧ a.version.getD "" = b.version.getD "" := by
  rw [pkgLe_iff] at h1 h2
  unfold specOutputLe at h1 h2
  rcases h1 with h1 | ⟨hn1, hv1⟩
  · rcases h2 with h2 | ⟨hn2, hv2⟩
    · exact absurd h2 (lt_asymm h1)
    · refine absurd h1 ?_
      rw [hn2]
      exact lt_irrefl _
  · rcases h2 with h2 | ⟨hn2, hv2⟩
    · refine absurd h2 ?_
      rw [hn1]
      exact lt_irrefl _
    · exact ⟨hn1, le_antisymm hv1 hv2⟩

theorem mergePackageInfo_fresh {st : ExtractState} {c : PackageInfo}
    (hn : ∀ r ∈ st.packagesMap, r.name ≠ c.name)
    (hi : ∀ r ∈ st.packagesMap, r.id ≠ c.id) :
    mergePackageInfo st c =
      { st with packagesMap := st.packagesMap ++ [c] } := by
  have hfind : findMatchingId st.packagesMap c = none := by
    unfold findMatchingId
    split
    · rfl
    · have h1 : (st.packagesMap.find? fun existing =>
          existing.name == c.name &&
            (!strTruthy c.version || existing.version == c.version)) =
          none := by
        rw [List.find?_eq_none]
        intro x hx hpx
        rw [Bool.and_eq_true_iff] at hpx
        exact hn x hx (by simpa using hpx.1)
      rw [h1]
      rfl
  unfold mergePackageInfo
  dsimp only
  rw [hfind, Option.getD_none]
  have hfind2 : (st.packagesMap.find? fun r => r.id == c.id) = none := by
    rw [List.find?_eq_none]
    intro x hx hpx
    exact hi x hx (by simpa using hpx)
  rw [hfind2]
  rfl

theorem candidateFold_fresh : ∀ (cs : List PackageInfo) (st : ExtractState),
    cs.Pairwise (fun a b => a.name ≠ b.name) →
    cs.Pairwise (fun a b => a.id ≠ b.id) →
    (∀ c ∈ cs, ∀ r ∈ st.packagesMap, r.name ≠ c.name) →
    (∀ c ∈ cs, ∀ r ∈ st.packagesMap, r.id ≠ c.id) →
    (candidateFold cs st).packagesMap = st.packagesMap ++ cs := by
  intro cs
  induction cs with
  | nil =>
    intro st _ _ _ _
    simp [candidateFold]
  | cons c rest ih =>
    intro st hn hi hstn hsti
    unfold candidateFold
    rw [List.foldl_cons, mergePackageInfo_fresh
      (hstn c (List.mem_cons_self _ _)) (hsti c (List.mem_cons_self _ _))]
    have hmain := ih { st with packagesMap := st.packagesMap ++ [c] }
      (List.pairwise_cons.mp hn).2 (List.pairwise_cons.mp hi).2
      (by
        intro d hd r hr
        rcases List.mem_append.mp hr with h1 | h1
        · exact hstn d (List.mem_cons_of_mem _ hd) r h1
        · simp only [List.mem_singleton] at h1
          rw [h1]
          exact (List.pairwise_cons.mp hn).1 d hd)
      (by
        intro d hd r hr
        rcases List.mem_append.mp hr with h1 | h1
        · exact hsti d (List.mem_cons_of_mem _ hd) r h1
        · simp only [List.mem_singleton] at h1
          rw [h1]
          exact (List.pairwise_cons.mp hi).1 d hd)
    unfold candidateFold at hmain
    rw [hmain]
    simp

theorem dedupPass_fresh (E : List String) : ∀ (pkgs : List PackageInfo)
    (acc : List (String × PackageInfo)),
    pkgs.Pairwise (fun a b => dedupKey a ≠ dedupKey b) →
    (∀ p ∈ pkgs, ∀ q ∈ acc, q.1 ≠ dedupKey p) →
    pkgs.foldl (dedupInsert E) acc = acc ++ pkgs.map (fun p =>
      (dedupKey p, { p with isExplicit := some (E.contains p.name) })) := by
  intro pkgs
  induction pkgs with
  | nil =>
    intro acc _ _
    simp
  | cons p rest ih =>
    intro acc hk hacck
    rw [List.foldl_cons]
    have hins : dedupInsert E acc p = acc ++
        [(dedupKey p, { p with isExplicit := some (E.contains p.name) })] := by
      unfold dedupInsert
      dsimp only
      have hfind : (acc.find? fun q => q.1 == dedupKey p) = none := by
        rw [List.find?_eq_none]
        intro q hq hpq
        exact hacck p (List.mem_cons_self _ _) q hq (by simpa using hpq)
      rw [hfind]
      rfl
    have hstep := ih (acc ++
        [(dedupKey p, { p with isExplicit := some (E.contains p.name) })])
      (List.pairwise_cons.mp hk).2
      (by
        intro d hd q hq
        rcases List.mem_append.mp hq with h1 | h1
        · exact hacck d (List.mem_cons_of_mem _ hd) q h1
        · simp only [List.mem_singleton] at h1
          rw [h1]
          exact (List.pairwise_cons.mp hk).1 d hd)
    rw [hins, hstep]
    simp

theorem eq_of_pairwise_key_ne : ∀ {l : List PackageInfo},
    l.Pairwise (fun x y => dedupKey x ≠ dedupKey y) →
    ∀ {a b : PackageInfo}, a ∈ l → b ∈ l → dedupKey a = dedupKey b →
    a = b := by
  intro l
  induction l with
  | nil =>
    intro _ a b ha _ _
    simp at ha
  | cons x t ih =>
    intro h a b ha hb hk
    obtain ⟨hhead, htail⟩ := List.pairwise_cons.mp h
    rcases List.mem_cons.mp ha with h1 | h1
    · rcases List.mem_cons.mp hb with h2 | h2
      · rw [h1, h2]
      · exact absurd (h1 ▸ hk) (hhead b h2)
    · rcases List.mem_cons.mp hb with h2 | h2
      · exact absurd (h2 ▸ hk).symm (hhead a h1)
      · exact ih htail h1 h2 hk

theorem sorted_perm_eq : ∀ (l1 l2 : List PackageInfo),
    l1.Perm l2 → l1.Sorted pkgLe → l2.Sorted pkgLe →
    (∀ a ∈ l1, ∀ b ∈ l1, pkgLe a b → pkgLe b a → a = b) → l1 = l2 := by
  intro l1
  induction l1 with
  | nil =>
    intro l2 hperm _ _ _
    exact hperm.nil_eq
  | cons a t1 ih =>
    intro l2 hperm hs1 hs2 hanti
    cases l2 with
    | nil =>
      have := hperm.eq_nil
      simp at this
    | cons b t2 =>
      have hab : a = b := by
        by_contra hne
        have ha2 : a ∈ b :: t2 := hperm.mem_iff.mp (List.mem_cons_self _ _)
        have hb1 : b ∈ a :: t1 := hperm.mem_iff.mpr (List.mem_cons_self _ _)
        have ha2' : a ∈ t2 := by
          rcases List.mem_cons.mp ha2 with h | h
          · exact absurd h hne
          · exact h
        have hb1' : b ∈ t1 := by
          rcases List.mem_cons.mp hb1 with h | h
          · exact absurd h.symm hne
          · exact h
        have h1 : pkgLe a b := (List.sorted_cons.mp hs1).1 b hb1'
        have h2 : pkgLe b a := (List.sorted_cons.mp hs2).1 a ha2'
        exact hne (hanti a (List.mem_cons_self _ _) b
          (List.mem_cons_of_mem _ hb1') h1 h2)
      subst hab
      have hperm2 : t1.Perm t2 := (List.perm_cons a).mp hperm
      have heq := ih t2 hperm2 (List.sorted_cons.mp hs1).2
        (List.sorted_cons.mp hs2).2
        (fun x hx y hy hxy hyx => hanti x (List.mem_cons_of_mem _ hx) y
          (List.mem_cons_of_mem _ hy) hxy hyx)
      rw [heq]

/-- C4 (amended): when the candidates have pairwise distinct names,
pairwise distinct generated identifiers and pairwise distinct
deduplication keys — so that no merging can fire at either level — folding
them through `mergePackageInfo` in any order yields the same canonical
record list.  (In general the fold order matters: the counterexample shows
it can even change the number of records.) -/
theorem candidateFold_perm (E : List String) (cs1 cs2 : List PackageInfo)
    (hperm : cs1.Perm cs2)
    (hnames : cs1.Pairwise (fun a b => a.name ≠ b.name))
    (hids : cs1.Pairwise (fun a b => a.id ≠ b.id))
    (hkeys : cs1.Pairwise (fun a b => dedupKey a ≠ dedupKey b)) :
    finishPipeline E (candidateFold cs1 {}).packagesMap =
      finishPipeline E (candidateFold cs2 {}).packagesMap := by
  have hnames2 := (hperm.pairwise_iff (fun {a b} hab => hab.symm)).mp hnames
  have hids2 := (hperm.pairwise_iff (fun {a b} hab => hab.symm)).mp hids
  have hkeys2 := (hperm.pairwise_iff (fun {a b} hab => hab.symm)).mp hkeys
  have hvac1 : ∀ c ∈ cs1, ∀ r ∈ ({} : ExtractState).packagesMap,
      r.name ≠ c.name := fun c hc r hr => absurd hr (List.not_mem_nil r)
  have hvac2 : ∀ c ∈ cs1, ∀ r ∈ ({} : ExtractState).packagesMap,
      r.id ≠ c.id := fun c hc r hr => absurd hr (List.not_mem_nil r)
  have hvac3 : ∀ c ∈ cs2, ∀ r ∈ ({} : ExtractState).packagesMap,
      r.name ≠ c.name := fun c hc r hr => absurd hr (List.not_mem_nil r)
  have hvac4 : ∀ c ∈ cs2, ∀ r ∈ ({} : ExtractState).packagesMap,
      r.id ≠ c.id := fun c hc r hr => absurd hr (List.not_mem_nil r)
  have h1 : (candidateFold cs1 {}).packagesMap = cs1 := by
    rw [candidateFold_fresh cs1 {} hnames hids hvac1 hvac2]
    rfl
  have h2 : (candidateFold cs2 {}).packagesMap = cs2 := by
    rw [candidateFold_fresh cs2 {} hnames2 hids2 hvac3 hvac4]
    rfl
  rw [h1, h2]
  unfold finishPipeline
  dsimp only
  have hpf : (cs1.filter fun pkg => pkg.sources.contains "packages").Perm
      (cs2.filter fun pkg => pkg.sources.contains "packages") :=
    hperm.filter _
  have hkf1 : (cs1.filter fun pkg =>
      pkg.sources.contains "packages").Pairwise
      (fun a b => dedupKey a ≠ dedupKey b) :=
    hkeys.sublist (List.filter_sublist cs1)
  have hkf2 : (cs2.filter fun pkg =>
      pkg.sources.contains "packages").Pairwise
      (fun a b => dedupKey a ≠ dedupKey b) :=
    hkeys2.sublist (List.filter_sublist cs2)
  have hd1 : dedupPass E (cs1.filter fun pkg =>
      pkg.sources.contains "packages") =
      (cs1.filter fun pkg => pkg.sources.contains "packages").map (fun p =>
        (dedupKey p, { p with isExplicit := some (E.contains p.name) })) := by
    unfold dedupPass
    rw [dedupPass_fresh E _ [] hkf1
      (fun p hp q hq => absurd hq (List.not_mem_nil q))]
    rfl
  have hd2 : dedupPass E (cs2.filter fun pkg =>
      pkg.sources.contains "packages") =
      (cs2.filter fun pkg => pkg.sources.contains "packages").map (fun p =>
        (dedupKey p, { p with isExplicit := some (E.contains p.name) })) := by
    unfold dedupPass
    rw [dedupPass_fresh E _ [] hkf2
      (fun p hp q hq => absurd hq (List.not_mem_nil q))]
    rfl
  rw [hd1, hd2, List.map_map, List.map_map]
  have hmperm : ((cs1.filter fun pkg =>
      pkg.sources.contains "packages").map ((fun q : String × PackageInfo =>
        q.2) ∘ fun p =>
        (dedupKey p, { p with isExplicit := some (E.contains p.name) }))).Perm
      ((cs2.filter fun pkg => pkg.sources.contains "packages").map
        ((fun q : String × PackageInfo => q.2) ∘ fun p =>
        (dedupKey p, { p with isExplicit := some (E.contains p.name) }))) :=
    hpf.map _
  have hkm : ((cs1.filter fun pkg =>
      pkg.sources.contains "packages").map ((fun q : String × PackageInfo =>
        q.2) ∘ fun p =>
        (dedupKey p,
          { p with isExplicit := some (E.contains p.name) }))).Pairwise
      (fun x y => dedupKey x ≠ dedupKey y) :=
    List.pairwise_map.mpr hkf1
  apply sorted_perm_eq
  · exact ((List.perm_insertionSort pkgLe _).trans hmperm).trans
      (List.perm_insertionSort pkgLe _).symm
  · exact List.sorted_insertionSort pkgLe _
  · exact List.sorted_insertionSort pkgLe _
  · intro a ha b hb hab hba
    have ha2 := (List.perm_insertionSort pkgLe _).mem_iff.mp ha
    have hb2 := (List.perm_insertionSort pkgLe _).mem_iff.mp hb
    obtain ⟨hn, hv⟩ := pkgLe_antisymm_key hab hba
    refine eq_of_pairwise_key_ne hkm ha2 hb2 ?_
    unfold dedupKey
    rw [hn, hv]

/-- A versionless `packages`-origin candidate named `a`. -/
def permCandA : PackageInfo :=
  { id := "packages:node_modules/a|a", name := "a"
    path := some "node_modules/a", sources := ["packages"] }

/-- A versioned `packages`-origin candidate named `b`. -/
def permCandB : PackageInfo :=
  { id := "packages:node_modules/b|b|1", name := "b", version := some "1"
    path := some "node_modules/b", sources := ["packages"] }

/-- C4 witness: the theorem applies non-vacuously — two distinct-name,
distinct-id, distinct-key candidates folded in either order give the same
canonical list. -/
theorem candidateFold_perm_witness :
    [permCandA, permCandB].Perm [permCandB, permCandA] ∧
    finishPipeline [] (candidateFold [permCandA, permCandB] {}).packagesMap =
      finishPipeline [] (candidateFold [permCandB, permCandA] {}).packagesMap
    := by
  have hperm : [permCandA, permCandB].Perm [permCandB, permCandA] :=
    List.Perm.swap _ _ _
  refine ⟨hperm, candidateFold_perm [] _ _ hperm ?_ ?_ ?_⟩
  · simp +decide [permCandA, permCandB, List.pairwise_cons]
  · simp +decide [permCandA, permCandB, List.pairwise_cons]
  · simp +decide [permCandA, permCandB, dedupKey, List.pairwise_cons]

end Putesco
